import Mathlib

/-!
# rocPRIM: device-level `transform` and two-way `merge`

A shallow embedding of `rocprim::transform` (`device_transform_hip.hpp`) as a pure
function that returns the status together with the ordered trace of runtime calls and
diagnostic output it performs, followed by the device-side meaning of the kernel it
launches, and a model of the tiled merge-path `merge` / `merge_pairs` primitives.
-/

namespace rocprim

/-! ## Host-side types -/

/-- The HIP status enumeration `hipError_t`, by numeric code. -/
abbrev hipError_t := Nat

/-- The status `hipSuccess` (code 0). -/
def hipSuccess : hipError_t := 0

/-- A HIP stream handle `hipStream_t`; `0` is the default stream. -/
abbrev hipStream_t := Nat

/-- An iterator given as a simple device pointer; address `0` is the null pointer. -/
structure DevicePtr where
  addr : Nat
  deriving DecidableEq, Repr

/-- The null device pointer. -/
def DevicePtr.null : DevicePtr := ⟨0⟩

/-- One operand streamed to `std::cout`: a string literal, an integer, or the elapsed time
`end - start` between two clock readings (which the source prints in milliseconds). -/
inductive CoutItem where
  | text (s : String)
  | count (n : Nat)
  | elapsed (d : Int)
  deriving DecidableEq, Repr

/-- What the call does that is visible outside it, in program order: a statement writing
to `std::cout`, the kernel launch request, and the two HIP runtime queries. -/
inductive Event (F : Type) where
  | cout (items : List CoutItem)
  | hipLaunchKernelGGL (BlockSize ItemsPerThread : Nat) (numBlocks dimBlocks sharedMemBytes : Nat)
      (stream : hipStream_t) (input : DevicePtr) (size : Nat) (output : DevicePtr)
      (transform_op : F)
  | hipPeekAtLastError
  | hipStreamSynchronize (stream : hipStream_t)

/-- The answers the environment gives during one call: the status reported by
`hipPeekAtLastError()` after the launch, the status reported by `hipStreamSynchronize`,
and the two readings of `std::chrono::high_resolution_clock::now()` (in clock ticks). -/
structure Runtime where
  hipPeekAtLastError : hipError_t
  hipStreamSynchronize : hipError_t
  now_start : Int
  now_end : Int

/-- Whether an event is a kernel launch request. -/
def Event.isLaunch {F : Type} : Event F → Bool
  | .hipLaunchKernelGGL .. => true
  | _ => false

/-- Whether an event is a stream synchronization. -/
def Event.isSync {F : Type} : Event F → Bool
  | .hipStreamSynchronize _ => true
  | _ => false

/-- Whether an event writes to the diagnostics output `std::cout`. -/
def Event.isCout {F : Type} : Event F → Bool
  | .cout _ => true
  | _ => false

/-- Whether an event is the launch check `hipPeekAtLastError()`. -/
def Event.isPeek {F : Type} : Event F → Bool
  | .hipPeekAtLastError => true
  | _ => false

/-! ## Machine arithmetic -/

/-- Addition of two `size_t` values (64-bit unsigned, wrapping). -/
def size_t_add (a b : Nat) : Nat := (a + b) % 2 ^ 64

/-- Subtraction of two `size_t` values (64-bit unsigned, wrapping). -/
def size_t_sub (a b : Nat) : Nat := (a + 2 ^ 64 - b % 2 ^ 64) % 2 ^ 64

/-- The `x` component of HIP's `dim3`: a 32-bit unsigned integer, to which the `size_t`
argument of `dim3(number_of_blocks)` is narrowed. -/
def dim3 (x : Nat) : Nat := x % 2 ^ 32

/-! ## `transform` (host side) -/

namespace detail

/-- The macro `ROCPRIM_DETAIL_HIP_SYNC_AND_RETURN_ON_ERROR(name, size, start)`: the early
return value, if any, and the events performed. -/
def ROCPRIM_DETAIL_HIP_SYNC_AND_RETURN_ON_ERROR {F : Type} (rt : Runtime)
    (debug_synchronous : Bool) (stream : hipStream_t) (name : String) (size : Nat)
    (start : Int) : Option hipError_t × List (Event F) :=
  let error := rt.hipPeekAtLastError
  if error ≠ hipSuccess then (some error, [Event.hipPeekAtLastError])
  else if debug_synchronous then
    let head : List (Event F) :=
      [Event.hipPeekAtLastError,
       Event.cout [CoutItem.text name, CoutItem.text "(", CoutItem.count size, CoutItem.text ")"],
       Event.hipStreamSynchronize stream]
    let error := rt.hipStreamSynchronize
    if error ≠ hipSuccess then (some error, head)
    else
      let d := rt.now_end - start
      (none, head ++ [Event.cout [CoutItem.text " ", CoutItem.elapsed d, CoutItem.text " ms",
                                  CoutItem.text "\n"]])
  else (none, [Event.hipPeekAtLastError])

end detail

/-- The constant `block_size` of `transform`. -/
def block_size : Nat := 256

/-- The constant `items_per_thread` of `transform`. -/
def items_per_thread : Nat := 4

/-- The constant `items_per_block` of `transform` (an `unsigned int` product, 1024). -/
def items_per_block : Nat := (block_size * items_per_thread) % 2 ^ 32

/-- The local `number_of_blocks` of `transform`:
`(size + items_per_block - 1)/items_per_block` in `size_t` arithmetic. -/
def number_of_blocks (size : Nat) : Nat :=
  size_t_sub (size_t_add size items_per_block) 1 / items_per_block

/-- The function `rocprim::transform(input, output, size, transform_op, stream, debug_synchronous)`:
the returned status and the trace of events. -/
def transform {F : Type} (rt : Runtime) (input : DevicePtr) (output : DevicePtr) (size : Nat)
    (transform_op : F) (stream : hipStream_t) (debug_synchronous : Bool) :
    hipError_t × List (Event F) :=
  let number_of_blocks := number_of_blocks size
  let banner : List (Event F) :=
    if debug_synchronous then
      [Event.cout [CoutItem.text "block_size ", CoutItem.count block_size, CoutItem.text "\n"],
       Event.cout [CoutItem.text "number of blocks ", CoutItem.count number_of_blocks,
                   CoutItem.text "\n"],
       Event.cout [CoutItem.text "items_per_block ", CoutItem.count items_per_block,
                   CoutItem.text "\n"]]
    else []
  let start : Int := if debug_synchronous then rt.now_start else 0
  let launch : List (Event F) :=
    [Event.hipLaunchKernelGGL block_size items_per_thread (dim3 number_of_blocks)
      (dim3 block_size) 0 stream input size output transform_op]
  match detail.ROCPRIM_DETAIL_HIP_SYNC_AND_RETURN_ON_ERROR rt debug_synchronous stream
      "transform_kernel" size start with
  | (some error, evs) => (error, banner ++ launch ++ evs)
  | (none, evs) => (hipSuccess, banner ++ launch ++ evs)

/-! ## `transform` (device side) -/

namespace detail

/-- Modelled from the spec: `transform_kernel_impl` of `detail/device_transform.hpp`, which
is not among the sources. For `size` elements, each thread processes `ItemsPerThread`
elements of its block's tile with no inter-thread dependency, applying the unary function
into the output range; items at or past `size` are skipped. The result lists the stores
`(k, transform_op (input k))` of one thread; the thread loads exactly the `input k` of
those `k`. -/
def transform_kernel_impl {α β : Type} (BlockSize ItemsPerThread : Nat)
    (flat_block_id flat_id : Nat) (input : Nat → α) (size : Nat) (transform_op : α → β) :
    List (Nat × β) :=
  ((List.range ItemsPerThread).map
      (fun i => flat_block_id * (BlockSize * ItemsPerThread) + flat_id * ItemsPerThread + i)).filterMap
    (fun k => if k < size then some (k, transform_op (input k)) else none)

/-- The kernel `transform_kernel<BlockSize, ItemsPerThread>`, as run by thread `flat_id` of
block `flat_block_id`. -/
def transform_kernel {α β : Type} (BlockSize ItemsPerThread : Nat)
    (flat_block_id flat_id : Nat) (input : Nat → α) (size : Nat) (transform_op : α → β) :
    List (Nat × β) :=
  transform_kernel_impl BlockSize ItemsPerThread flat_block_id flat_id input size transform_op

end detail

/-- All stores of a grid of `numBlocks` blocks of `dimBlocks` threads running `kernel`. -/
def run_grid {β : Type} (numBlocks dimBlocks : Nat) (kernel : Nat → Nat → List (Nat × β)) :
    List (Nat × β) :=
  (List.range numBlocks).flatMap (fun b => (List.range dimBlocks).flatMap (fun t => kernel b t))

/-- The stores, relative to the output iterator, that one event causes on the device once
the stream has drained. Only a launch causes any. -/
def Event.stores {α β : Type} (inMem : Nat → α) : Event (α → β) → List (Nat × β)
  | .hipLaunchKernelGGL BlockSize ItemsPerThread numBlocks dimBlocks _ _ input size _ op =>
      run_grid numBlocks dimBlocks
        (fun b t => detail.transform_kernel BlockSize ItemsPerThread b t
          (fun k => inMem (input.addr + k)) size op)
  | _ => []

/-- The output iterator an event writes through, if it is a launch. -/
def Event.outputPtr {F : Type} : Event F → DevicePtr
  | .hipLaunchKernelGGL _ _ _ _ _ _ _ _ output _ => output
  | _ => DevicePtr.null

/-- Performs a list of stores `(k, v)`, each writing `v` to `output[k]`. -/
def apply_stores {β : Type} (output : DevicePtr) (stores : List (Nat × β)) (mem : Nat → β) :
    Nat → β :=
  stores.foldl (fun m s => Function.update m (output.addr + s.1) s.2) mem

/-- Output memory once every kernel launched in the trace has run to completion. -/
def device_complete {α β : Type} (inMem : Nat → α) (trace : List (Event (α → β)))
    (outMem : Nat → β) : Nat → β :=
  trace.foldl (fun m e => apply_stores e.outputPtr (e.stores inMem) m) outMem

/-- The documented precondition of `transform` on a range, "ranges specified by input and
output must have at least size elements": the `size` elements that start at the pointer all
have addresses of the 64-bit address space. -/
def valid_range (p : DevicePtr) (size : Nat) : Prop := p.addr + size ≤ 2 ^ 64

/-- The ceiling of `a / b`. -/
def ceil_div (a b : Nat) : Nat := a / b + (if a % b = 0 then 0 else 1)

/-! ## `merge` and `merge_pairs`

The header `rocprim/device/device_merge.hpp` that the merge benchmark drives is not among
the sources; the definitions of this section follow the specification. The comparator
`compare_function a b` answers whether `a` is ordered strictly before `b`. -/

namespace detail

/-- Modelled from the spec: the comparison the Merge-Path Partitioner makes at candidate
`a` on diagonal `diag` (device merge header, not among the sources). The candidate moves
right when `first[a] ≤ second[diag - 1 - a]`, that is when the second sequence's element is
not ordered before the first's, so that on equal keys the first sequence is favoured. A
read past the end of a sequence is the `+∞` sentinel. -/
def merge_path_right {κ : Type} (compare_function : κ → κ → Bool)
    (keys_input1 keys_input2 : List κ) (diag a : Nat) : Bool :=
  match keys_input1[a]?, keys_input2[diag - 1 - a]? with
  | some x, some y => !compare_function y x
  | none, _ => false
  | some _, none => true

/-- Modelled from the spec: the binary search of the Merge-Path Partitioner (device merge
header, not among the sources). On the diagonal `diag` it searches `i` in `[lo, hi]`,
halving the interval at each step; `fuel` bounds the number of steps. -/
def merge_path_search {κ : Type} (compare_function : κ → κ → Bool)
    (keys_input1 keys_input2 : List κ) (diag : Nat) : Nat → Nat → Nat → Nat
  | 0, lo, _ => lo
  | fuel + 1, lo, hi =>
    if lo < hi then
      let a := (lo + hi) / 2
      if merge_path_right compare_function keys_input1 keys_input2 diag a then
        merge_path_search compare_function keys_input1 keys_input2 diag fuel (a + 1) hi
      else merge_path_search compare_function keys_input1 keys_input2 diag fuel lo a
    else lo

/-- Modelled from the spec: the Merge-Path Partitioner's search for one diagonal (device
merge header, not among the sources): binary-search `i` over
`[max(0, d − n2), min(d, n1)]`. -/
def merge_path {κ : Type} (compare_function : κ → κ → Bool) (keys_input1 keys_input2 : List κ)
    (diag : Nat) : Nat :=
  let lo := diag - keys_input2.length
  let hi := min diag keys_input1.length
  merge_path_search compare_function keys_input1 keys_input2 diag (hi - lo) lo hi

/-- Modelled from the spec: the tile boundary diagonal `d_k = k·T`, clamped to `n1 + n2`
(device merge header, not among the sources). -/
def diagonal (T n k : Nat) : Nat := min (k * T) n

/-- Modelled from the spec: the partition point `(i, j)`, `i + j = d_k`, of tile boundary
`k` (device merge header, not among the sources). -/
def partition_point {κ : Type} (compare_function : κ → κ → Bool) (T : Nat)
    (keys_input1 keys_input2 : List κ) (k : Nat) : Nat × Nat :=
  let d := diagonal T (keys_input1.length + keys_input2.length) k
  let i := merge_path compare_function keys_input1 keys_input2 d
  (i, d - i)

/-- Modelled from the spec: the scratch buffer of the `ceil((n1+n2)/T) + 1` partition
points, one per tile boundary (device merge header, not among the sources). -/
def partition_kernel {κ : Type} (compare_function : κ → κ → Bool) (T : Nat)
    (keys_input1 keys_input2 : List κ) : List (Nat × Nat) :=
  (List.range (ceil_div (keys_input1.length + keys_input2.length) T + 1)).map
    (partition_point compare_function T keys_input1 keys_input2)

/-- Modelled from the spec: the linear two-pointer merge inside one block (device merge
header, not among the sources). It emits `count` items, the tracked number of valid
elements; each step takes the head of the second slice only when it is ordered strictly
before the head of the first. -/
def serial_merge {ε : Type} (compare_function : ε → ε → Bool) : Nat → List ε → List ε → List ε
  | 0, _, _ => []
  | _ + 1, [], [] => []
  | count + 1, x :: xs, [] => x :: serial_merge compare_function count xs []
  | count + 1, [], y :: ys => y :: serial_merge compare_function count [] ys
  | count + 1, x :: xs, y :: ys =>
    if compare_function y x then y :: serial_merge compare_function count (x :: xs) ys
    else x :: serial_merge compare_function count xs (y :: ys)

/-- Modelled from the spec: the Block Merge Kernel for tile `k` (device merge header, not
among the sources): it reads its start and end partition points from the scratch buffer,
loads `first[i0:i1)` and `second[j0:j1)` and merges them, producing the output tile. -/
def merge_kernel {ε : Type} (compare_function : ε → ε → Bool) (partitions : List (Nat × Nat))
    (input1 input2 : List ε) (k : Nat) : List ε :=
  let p0 := partitions.getD k (0, 0)
  let p1 := partitions.getD (k + 1) (0, 0)
  let count := (p1.1 - p0.1) + (p1.2 - p0.2)
  serial_merge compare_function count ((input1.drop p0.1).take (p1.1 - p0.1))
    ((input2.drop p0.2).take (p1.2 - p0.2))

end detail

/-- Modelled from the spec: `merge(input1, n1, input2, n2, output, comparator)` with tile
size `T` (device merge header, not among the sources): the partitioner fills the scratch
buffer, then every tile is merged by its own block, and the output is the tiles' outputs
in tile order. -/
def merge {ε : Type} (compare_function : ε → ε → Bool) (T : Nat) (input1 input2 : List ε) :
    List ε :=
  let partitions := detail.partition_kernel compare_function T input1 input2
  (List.range (ceil_div (input1.length + input2.length) T)).flatMap
    (detail.merge_kernel compare_function partitions input1 input2)

/-- Modelled from the spec: `merge_pairs` (device merge header, not among the sources):
each key travels with its associated value, and only keys are compared. The result is the
pair of output keys and output values. -/
def merge_pairs {κ ν : Type} (compare_function : κ → κ → Bool) (T : Nat)
    (keys_input1 : List κ) (values_input1 : List ν) (keys_input2 : List κ)
    (values_input2 : List ν) : List κ × List ν :=
  (merge (fun p q => compare_function p.1 q.1) T (keys_input1.zip values_input1)
    (keys_input2.zip values_input2)).unzip

/-- The requirement on a comparator: it is the strict part of a total order of the keys, up
to equivalence of keys (a strict weak ordering): it is asymmetric, and "not ordered before"
is transitive. -/
def strict_weak_order {ε : Type} (compare_function : ε → ε → Bool) : Prop :=
  (∀ a b, compare_function a b = true → compare_function b a = false) ∧
  (∀ a b c, compare_function a b = false → compare_function b c = false →
    compare_function a c = false)

/-- A sequence is sorted under the comparator: no element is ordered strictly before an
earlier one. -/
def is_sorted {ε : Type} (compare_function : ε → ε → Bool) (l : List ε) : Prop :=
  l.Pairwise (fun x y => compare_function y x = false)

/-! ## The block count -/

theorem items_per_block_eq : items_per_block = 1024 := by decide

theorem number_of_blocks_of_le {size : Nat} (h : size ≤ 2 ^ 64 - 1024) :
    number_of_blocks size = (size + 1023) / 1024 := by
  unfold number_of_blocks size_t_sub size_t_add
  rw [items_per_block_eq]
  norm_num at h ⊢
  omega

theorem ceil_div_1024 (size : Nat) : ceil_div size 1024 = (size + 1023) / 1024 := by
  unfold ceil_div
  split <;> omega

theorem number_of_blocks_zero : number_of_blocks 0 = 0 := by decide

/-! ## The trace of `transform` -/

/-- The launch request `transform` issues. -/
theorem transform_launches {F : Type} (rt : Runtime) (input output : DevicePtr) (size : Nat)
    (op : F) (stream : hipStream_t) (dbg : Bool) :
    (transform rt input output size op stream dbg).2.filter Event.isLaunch
      = [Event.hipLaunchKernelGGL block_size items_per_thread (dim3 (number_of_blocks size))
          (dim3 block_size) 0 stream input size output op] := by
  unfold transform detail.ROCPRIM_DETAIL_HIP_SYNC_AND_RETURN_ON_ERROR
  cases dbg <;> by_cases h1 : rt.hipPeekAtLastError = hipSuccess <;>
    by_cases h2 : rt.hipStreamSynchronize = hipSuccess <;>
    simp [h1, h2, Event.isLaunch, List.filter]

/-- The status `transform` returns, by cases on the runtime's answers. -/
theorem transform_status {F : Type} (rt : Runtime) (input output : DevicePtr) (size : Nat)
    (op : F) (stream : hipStream_t) (dbg : Bool) :
    (transform rt input output size op stream dbg).1
      = if rt.hipPeekAtLastError ≠ hipSuccess then rt.hipPeekAtLastError
        else if dbg = true ∧ rt.hipStreamSynchronize ≠ hipSuccess then rt.hipStreamSynchronize
        else hipSuccess := by
  unfold transform detail.ROCPRIM_DETAIL_HIP_SYNC_AND_RETURN_ON_ERROR
  cases dbg <;> by_cases h1 : rt.hipPeekAtLastError = hipSuccess <;>
    by_cases h2 : rt.hipStreamSynchronize = hipSuccess <;>
    simp [h1, h2]

/-! ## Device-side meaning of the launch -/

theorem apply_stores_nil {β : Type} (output : DevicePtr) (mem : Nat → β) :
    apply_stores output [] mem = mem := rfl

theorem apply_stores_cons {β : Type} (output : DevicePtr) (s : Nat × β) (rest : List (Nat × β))
    (mem : Nat → β) :
    apply_stores output (s :: rest) mem
      = apply_stores output rest (Function.update mem (output.addr + s.1) s.2) := rfl

/-- When every store writes the value `g k` to `output[k]`, the cells stored to hold `g k`
afterwards and all other cells are unchanged. -/
theorem apply_stores_spec {β : Type} (output : DevicePtr) (g : Nat → β)
    (stores : List (Nat × β)) (h : ∀ s ∈ stores, s.2 = g s.1) (mem : Nat → β) (k : Nat) :
    (k ∈ stores.map Prod.fst → apply_stores output stores mem (output.addr + k) = g k) ∧
    (k ∉ stores.map Prod.fst →
      apply_stores output stores mem (output.addr + k) = mem (output.addr + k)) := by
  induction stores generalizing mem with
  | nil => simp [apply_stores_nil]
  | cons s rest ih =>
    have hrest : ∀ t ∈ rest, t.2 = g t.1 := fun t ht => h t (List.mem_cons_of_mem _ ht)
    have hs : s.2 = g s.1 := h s (List.mem_cons_self _ _)
    obtain ⟨ih1, ih2⟩ := ih hrest (Function.update mem (output.addr + s.1) s.2)
    rw [apply_stores_cons]
    by_cases hk : k ∈ rest.map Prod.fst
    · exact ⟨fun _ => ih1 hk, fun hn => absurd (by simp [List.mem_map] at hk ⊢; tauto) hn⟩
    · rw [ih2 hk]
      constructor
      · intro hmem
        have hks : k = s.1 := by
          simp only [List.map_cons, List.mem_cons] at hmem
          rcases hmem with h1 | h1
          · exact h1
          · exact absurd h1 hk
        subst hks
        simp [hs]
      · intro hn
        have hne : k ≠ s.1 := by
          intro heq
          exact hn (by simp [heq])
        have : output.addr + k ≠ output.addr + s.1 := by omega
        simp [Function.update, this]

theorem mem_run_grid {β : Type} (numBlocks dimBlocks : Nat)
    (kernel : Nat → Nat → List (Nat × β)) (s : Nat × β) :
    s ∈ run_grid numBlocks dimBlocks kernel ↔
      ∃ b, b < numBlocks ∧ ∃ t, t < dimBlocks ∧ s ∈ kernel b t := by
  simp [run_grid, List.mem_flatMap, List.mem_range]

theorem mem_transform_kernel {α β : Type} (BlockSize ItemsPerThread b t : Nat)
    (input : Nat → α) (size : Nat) (op : α → β) (s : Nat × β) :
    s ∈ detail.transform_kernel BlockSize ItemsPerThread b t input size op ↔
      ∃ i, i < ItemsPerThread ∧ s.1 = b * (BlockSize * ItemsPerThread) + t * ItemsPerThread + i ∧
        s.1 < size ∧ s.2 = op (input s.1) := by
  obtain ⟨k, v⟩ := s
  simp only [detail.transform_kernel, detail.transform_kernel_impl, List.mem_filterMap,
    List.mem_map, List.mem_range]
  constructor
  · rintro ⟨k', ⟨i, hi, rfl⟩, hk⟩
    split at hk
    · simp only [Option.some.injEq, Prod.mk.injEq] at hk
      obtain ⟨h1, h2⟩ := hk
      subst h1
      exact ⟨i, hi, rfl, by assumption, h2.symm⟩
    · simp at hk
  · rintro ⟨i, hi, h1, h2, h3⟩
    refine ⟨k, ⟨i, hi, h1.symm⟩, ?_⟩
    simp [h2, h3]

/-- The complete trace of `transform`, by cases on the mode and the runtime's answers. -/
theorem transform_trace_eq {F : Type} (rt : Runtime) (input output : DevicePtr) (size : Nat)
    (op : F) (stream : hipStream_t) (dbg : Bool) :
    (transform rt input output size op stream dbg).2
      = (if dbg = true then
          [Event.cout [CoutItem.text "block_size ", CoutItem.count block_size, CoutItem.text "\n"],
           Event.cout [CoutItem.text "number of blocks ", CoutItem.count (number_of_blocks size),
                       CoutItem.text "\n"],
           Event.cout [CoutItem.text "items_per_block ", CoutItem.count items_per_block,
                       CoutItem.text "\n"]]
         else [])
        ++ (Event.hipLaunchKernelGGL block_size items_per_thread (dim3 (number_of_blocks size))
              (dim3 block_size) 0 stream input size output op
            :: Event.hipPeekAtLastError
            :: (if rt.hipPeekAtLastError = hipSuccess ∧ dbg = true then
                  Event.cout [CoutItem.text "transform_kernel", CoutItem.text "(",
                              CoutItem.count size, CoutItem.text ")"]
                  :: Event.hipStreamSynchronize stream
                  :: (if rt.hipStreamSynchronize = hipSuccess then
                        [Event.cout [CoutItem.text " ",
                                     CoutItem.elapsed (rt.now_end - rt.now_start),
                                     CoutItem.text " ms", CoutItem.text "\n"]]
                      else [])
                else [])) := by
  unfold transform detail.ROCPRIM_DETAIL_HIP_SYNC_AND_RETURN_ON_ERROR
  cases dbg <;> by_cases h1 : rt.hipPeekAtLastError = hipSuccess <;>
    by_cases h2 : rt.hipStreamSynchronize = hipSuccess <;>
    simp only [h1, h2, ne_eq, not_true_eq_false, not_false_eq_true, if_false, if_true,
      and_true, and_false, true_and, false_and, Bool.false_eq_true] <;> rfl

theorem device_complete_cons {α β : Type} (inMem : Nat → α) (e : Event (α → β))
    (l : List (Event (α → β))) (m : Nat → β) :
    device_complete inMem (e :: l) m
      = device_complete inMem l (apply_stores e.outputPtr (e.stores inMem) m) := rfl

theorem stores_launch {α β : Type} (inMem : Nat → α) (BlockSize ItemsPerThread numBlocks
    dimBlocks shared : Nat) (stream : hipStream_t) (input : DevicePtr) (size : Nat)
    (output : DevicePtr) (op : α → β) :
    (Event.hipLaunchKernelGGL BlockSize ItemsPerThread numBlocks dimBlocks shared stream input
        size output op).stores inMem
      = run_grid numBlocks dimBlocks
          (fun b t => detail.transform_kernel BlockSize ItemsPerThread b t
            (fun k => inMem (input.addr + k)) size op) := rfl

theorem outputPtr_launch {F : Type} (BlockSize ItemsPerThread numBlocks
    dimBlocks shared : Nat) (stream : hipStream_t) (input : DevicePtr) (size : Nat)
    (output : DevicePtr) (op : F) :
    (Event.hipLaunchKernelGGL BlockSize ItemsPerThread numBlocks dimBlocks shared stream input
        size output op).outputPtr = output := rfl

theorem device_complete_append {α β : Type} (inMem : Nat → α) (l1 l2 : List (Event (α → β)))
    (m : Nat → β) :
    device_complete inMem (l1 ++ l2) m = device_complete inMem l2 (device_complete inMem l1 m) := by
  simp only [device_complete, List.foldl_append]

theorem stores_of_not_launch {α β : Type} (inMem : Nat → α) (e : Event (α → β))
    (h : e.isLaunch = false) : e.stores inMem = [] := by
  cases e with
  | cout items => rfl
  | hipLaunchKernelGGL a b c d e f g h i j => exact absurd h (by simp only [Event.isLaunch]; decide)
  | hipPeekAtLastError => rfl
  | hipStreamSynchronize s => rfl

theorem device_complete_of_no_launch {α β : Type} (inMem : Nat → α)
    (l : List (Event (α → β))) (h : ∀ e ∈ l, e.isLaunch = false) (m : Nat → β) :
    device_complete inMem l m = m := by
  induction l generalizing m with
  | nil => rfl
  | cons e rest ih =>
    have he : e.stores inMem = [] := stores_of_not_launch inMem e (h e (List.mem_cons_self _ _))
    have hr := ih (fun x hx => h x (List.mem_cons_of_mem _ hx))
    rw [device_complete_cons, he, apply_stores_nil, hr]

/-- The trace of `transform` is diagnostic output, then the launch, then events that are
not launches, the first of which is the launch check. -/
theorem transform_trace_split {F : Type} (rt : Runtime) (input output : DevicePtr) (size : Nat)
    (op : F) (stream : hipStream_t) (dbg : Bool) :
    ∃ pre post : List (Event F),
      (transform rt input output size op stream dbg).2
        = pre ++ (Event.hipLaunchKernelGGL block_size items_per_thread
            (dim3 (number_of_blocks size)) (dim3 block_size) 0 stream input size output op
          :: Event.hipPeekAtLastError :: post) ∧
      (∀ e ∈ pre, e.isCout = true) ∧
      (∀ e ∈ post, e.isLaunch = false ∧ e.isPeek = false) := by
  refine ⟨_, _, transform_trace_eq rt input output size op stream dbg, ?_, ?_⟩
  · intro e he
    split at he
    · rcases List.mem_cons.1 he with h | h
      · rw [h]; rfl
      · rcases List.mem_cons.1 h with h | h
        · rw [h]; rfl
        · rw [List.mem_singleton.1 h]; rfl
    · exact absurd he (List.not_mem_nil _)
  · intro e h
    split at h
    · rcases List.mem_cons.1 h with h | h
      · rw [h]; exact ⟨rfl, rfl⟩
      · rcases List.mem_cons.1 h with h | h
        · rw [h]; exact ⟨rfl, rfl⟩
        · split at h
          · rw [List.mem_singleton.1 h]; exact ⟨rfl, rfl⟩
          · exact absurd h (List.not_mem_nil _)
    · exact absurd h (List.not_mem_nil _)

theorem isLaunch_of_isCout {F : Type} (e : Event F) (h : e.isCout = true) :
    e.isLaunch = false := by
  cases e with
  | cout items => rfl
  | hipLaunchKernelGGL a b c d e f g h i j => exact absurd h (by simp only [Event.isCout]; decide)
  | hipPeekAtLastError => rfl
  | hipStreamSynchronize s => rfl

/-- Output memory after the kernel launched by `transform` has run. -/
theorem device_complete_transform {α β : Type} (rt : Runtime) (input output : DevicePtr)
    (size : Nat) (op : α → β) (stream : hipStream_t) (dbg : Bool) (inMem : Nat → α)
    (outMem : Nat → β) :
    device_complete inMem (transform rt input output size op stream dbg).2 outMem
      = apply_stores output
          (run_grid (dim3 (number_of_blocks size)) (dim3 block_size)
            (fun b t => detail.transform_kernel block_size items_per_thread b t
              (fun k => inMem (input.addr + k)) size op)) outMem := by
  obtain ⟨pre, post, h, hpre, hpost⟩ := transform_trace_split rt input output size op stream dbg
  have hpost2 : ∀ e ∈ Event.hipPeekAtLastError :: post, e.isLaunch = false := by
    intro e he
    rcases List.mem_cons.1 he with h | h
    · rw [h]; rfl
    · exact (hpost e h).1
  rw [h, device_complete_append,
    device_complete_of_no_launch inMem pre (fun e he => isLaunch_of_isCout e (hpre e he)),
    device_complete_cons, device_complete_of_no_launch inMem _ hpost2, stores_launch,
    outputPtr_launch]

/-- Every index below `size` is stored to by the grid when the launched block count covers
`size`. -/
theorem covered_of_le {α β : Type} (size : Nat) (hsize : size ≤ (2 ^ 32 - 1) * 1024)
    (input : Nat → α) (op : α → β) (k : Nat) (hk : k < size) :
    k ∈ (run_grid (dim3 (number_of_blocks size)) (dim3 block_size)
          (fun b t => detail.transform_kernel block_size items_per_thread b t input size op)).map
        Prod.fst := by
  have hnb : number_of_blocks size = (size + 1023) / 1024 :=
    number_of_blocks_of_le (by norm_num at hsize ⊢; omega)
  rw [List.mem_map]
  refine ⟨(k, op (input k)), ?_, rfl⟩
  rw [mem_run_grid]
  refine ⟨k / 1024, ?_, (k % 1024) / 4, ?_, ?_⟩
  · rw [hnb]
    unfold dim3
    norm_num at hsize ⊢
    omega
  · unfold dim3 block_size
    omega
  · rw [mem_transform_kernel]
    refine ⟨k % 4, by unfold items_per_thread; omega, ?_, hk, rfl⟩
    simp only [block_size, items_per_thread]
    omega

theorem run_grid_zero {β : Type} (dimBlocks : Nat) (kernel : Nat → Nat → List (Nat × β)) :
    run_grid 0 dimBlocks kernel = [] := rfl

/-! ## Claims about `transform` -/

/-- Every store of the launched grid lies in the tile of a launched block: its index is
below `numBlocks * 1024`. -/
theorem store_index_lt {α β : Type} (numBlocks : Nat) (input : Nat → α) (size : Nat)
    (op : α → β) (s : Nat × β)
    (hs : s ∈ run_grid numBlocks (dim3 block_size)
      (fun b t => detail.transform_kernel block_size items_per_thread b t input size op)) :
    s.1 < numBlocks * 1024 := by
  rw [mem_run_grid] at hs
  obtain ⟨b, hb, t, ht, hmem⟩ := hs
  rw [mem_transform_kernel] at hmem
  obtain ⟨i, hi, hidx, _, _⟩ := hmem
  unfold dim3 block_size at ht
  unfold items_per_thread at hi
  simp only [block_size, items_per_thread] at hidx
  omega

/-- Past the bound `(2^32 - 1) * 1024` the launched grid never covers the range: for every
`size_t` value `size` above it, the index `numBlocks * 1024` just after the last launched
tile is below `size`, and `output` keeps its old value there. -/
theorem transform_uncovered {α β : Type} (rt : Runtime) (input output : DevicePtr) (size : Nat)
    (f : α → β) (stream : hipStream_t) (debug_synchronous : Bool) (inMem : Nat → α)
    (outMem : Nat → β) (hlo : (2 ^ 32 - 1) * 1024 < size) (hhi : size < 2 ^ 64) :
    dim3 (number_of_blocks size) * 1024 < size ∧
    device_complete inMem (transform rt input output size f stream debug_synchronous).2 outMem
        (output.addr + dim3 (number_of_blocks size) * 1024)
      = outMem (output.addr + dim3 (number_of_blocks size) * 1024) := by
  constructor
  · unfold dim3 number_of_blocks size_t_sub size_t_add
    rw [items_per_block_eq]
    norm_num at hlo hhi ⊢
    omega
  · rw [device_complete_transform]
    refine (apply_stores_spec output (fun j => f (inMem (input.addr + j))) _ ?_ outMem
      (dim3 (number_of_blocks size) * 1024)).2 ?_
    · intro s hs
      rw [mem_run_grid] at hs
      obtain ⟨b, _, t, _, hmem⟩ := hs
      rw [mem_transform_kernel] at hmem
      obtain ⟨i, _, _, _, hv⟩ := hmem
      exact hv
    · intro hmem
      obtain ⟨s, hs, hk⟩ := List.mem_map.1 hmem
      have hlt := store_index_lt (dim3 (number_of_blocks size))
        (fun k => inMem (input.addr + k)) size f s hs
      omega

/-- C1 (as stated, refuted): take `size = 2^42 + 1`, an input range at address `2^12` and an
output range at address `2^44`, both well inside the 64-bit address space and apart from
each other. The block count `2^32 + 1` is narrowed by `dim3` to a grid of one block, an
ordinary launch of 256 threads; `transform` returns `hipSuccess`, and `output[1024]`, an
index below `size`, still holds its old value `0` and not `f(input[1024]) = 1`. -/
theorem transform_correct_counterexample :
    valid_range ⟨2 ^ 12⟩ (2 ^ 42 + 1) ∧ valid_range ⟨2 ^ 44⟩ (2 ^ 42 + 1) ∧
    number_of_blocks (2 ^ 42 + 1) = 2 ^ 32 + 1 ∧
    (transform ⟨0, 0, 0, 0⟩ ⟨2 ^ 12⟩ ⟨2 ^ 44⟩ (2 ^ 42 + 1) (fun a : Nat => a + 1) 0 false).2
      = [Event.hipLaunchKernelGGL 256 4 1 256 0 0 ⟨2 ^ 12⟩ (2 ^ 42 + 1) ⟨2 ^ 44⟩
          (fun a : Nat => a + 1), Event.hipPeekAtLastError] ∧
    (transform ⟨0, 0, 0, 0⟩ ⟨2 ^ 12⟩ ⟨2 ^ 44⟩ (2 ^ 42 + 1) (fun a : Nat => a + 1) 0 false).1
      = hipSuccess ∧
    1024 < 2 ^ 42 + 1 ∧
    device_complete (fun _ => 0)
        (transform ⟨0, 0, 0, 0⟩ ⟨2 ^ 12⟩ ⟨2 ^ 44⟩ (2 ^ 42 + 1) (fun a : Nat => a + 1) 0 false).2
        (fun _ => 0) ((⟨2 ^ 44⟩ : DevicePtr).addr + 1024)
      ≠ (fun a : Nat => a + 1) ((fun _ => 0) ((⟨2 ^ 12⟩ : DevicePtr).addr + 1024)) := by
  have hgrid : dim3 (number_of_blocks (2 ^ 42 + 1)) = 1 := by decide
  have hun := (transform_uncovered ⟨0, 0, 0, 0⟩ ⟨2 ^ 12⟩ ⟨2 ^ 44⟩ (2 ^ 42 + 1)
    (fun a : Nat => a + 1) 0 false (fun _ => 0) (fun _ => 0) (by decide) (by decide)).2
  rw [hgrid] at hun
  refine ⟨by unfold valid_range; decide, by unfold valid_range; decide, by decide, ?_,
    by rw [transform_status]; decide, by decide, ?_⟩
  · rw [transform_trace_eq, hgrid, if_neg (by decide),
      if_neg (fun hc => absurd hc.2 (by decide))]
    rfl
  · rw [hun]
    decide

/-- C1 (amended): for every `size ≤ (2^32 - 1) * 1024`, so that the block count neither
wraps nor is narrowed by the 32-bit grid dimension, every input range and output range of at
least `size` elements and every unary function `f`: after `transform(input, output, size, f)`
has returned `hipSuccess` and the launched kernel has run, `output[k] = f(input[k])` for
every `k < size`. -/
theorem transform_correct {α β : Type} (rt : Runtime) (input output : DevicePtr) (size : Nat)
    (f : α → β) (stream : hipStream_t) (debug_synchronous : Bool) (inMem : Nat → α)
    (outMem : Nat → β) (hsize : size ≤ (2 ^ 32 - 1) * 1024)
    (_hin : valid_range input size) (_hout : valid_range output size)
    (_hok : (transform rt input output size f stream debug_synchronous).1 = hipSuccess) :
    ∀ k, k < size →
      device_complete inMem (transform rt input output size f stream debug_synchronous).2 outMem
          (output.addr + k)
        = f (inMem (input.addr + k)) := by
  intro k hk
  rw [device_complete_transform]
  refine (apply_stores_spec output (fun j => f (inMem (input.addr + j))) _ ?_ outMem k).1
    (covered_of_le size hsize (fun j => inMem (input.addr + j)) f k hk)
  intro s hs
  rw [mem_run_grid] at hs
  obtain ⟨b, _, t, _, hmem⟩ := hs
  rw [mem_transform_kernel] at hmem
  obtain ⟨i, _, _, _, hv⟩ := hmem
  exact hv

/-- C1 witness: the documented example, input `[1, 2, 3, 4, 5, 6, 7, 8]` with `f(a) = a + 5`
gives output `[6, 7, 8, 9, 10, 11, 12, 13]`. -/
theorem transform_correct_witness :
    8 ≤ (2 ^ 32 - 1) * 1024 ∧ valid_range ⟨100⟩ 8 ∧ valid_range ⟨200⟩ 8 ∧
    (transform ⟨0, 0, 0, 0⟩ ⟨100⟩ ⟨200⟩ 8 (fun a : Int => a + 5) 0 false).1 = hipSuccess ∧
    ∀ k, k < 8 →
      device_complete (fun a => (a : Int) - 99)
          (transform ⟨0, 0, 0, 0⟩ ⟨100⟩ ⟨200⟩ 8 (fun a : Int => a + 5) 0 false).2 (fun _ => 0)
          (200 + k)
        = (k : Int) + 6 := by
  have h1 : 8 ≤ (2 ^ 32 - 1) * 1024 := by decide
  have hin : valid_range ⟨100⟩ 8 := by unfold valid_range; decide
  have hout : valid_range ⟨200⟩ 8 := by unfold valid_range; decide
  have h2 : (transform ⟨0, 0, 0, 0⟩ ⟨100⟩ ⟨200⟩ 8 (fun a : Int => a + 5) 0 false).1
      = hipSuccess := by rw [transform_status]; decide
  refine ⟨h1, hin, hout, h2, ?_⟩
  intro k hk
  have h := transform_correct ⟨0, 0, 0, 0⟩ ⟨100⟩ ⟨200⟩ 8 (fun a : Int => a + 5) 0 false
    (fun a => (a : Int) - 99) (fun _ => 0) h1 hin hout h2 k hk
  rw [h]
  push_cast
  ring

/-- C4 (as stated, refuted): at `size = 2^64 - 1` the computed `number_of_blocks` is 0, not
`ceil(size / items_per_block) = 2^54`. -/
theorem number_of_blocks_counterexample :
    number_of_blocks (2 ^ 64 - 1) = 0 ∧
    number_of_blocks (2 ^ 64 - 1) ≠ ceil_div (2 ^ 64 - 1) items_per_block := by
  decide

/-- C4 (amended): `items_per_block = block_size × items_per_thread = 256 × 4 = 1024`; for
every `size ≤ 2^64 - 1024` the computed `number_of_blocks` equals
`ceil(size / items_per_block)`; exactly one kernel launch is issued, with grid dimension
`dim3(number_of_blocks)` and `block_size` threads a block; and that grid dimension is the
block count itself whenever `size ≤ (2^32 - 1) * 1024`. -/
theorem transform_number_of_blocks {F : Type} (rt : Runtime) (input output : DevicePtr)
    (size : Nat) (f : F) (stream : hipStream_t) (debug_synchronous : Bool)
    (hsize : size ≤ 2 ^ 64 - 1024) :
    (items_per_block = block_size * items_per_thread ∧ block_size = 256 ∧
      items_per_thread = 4 ∧ items_per_block = 1024) ∧
    number_of_blocks size = ceil_div size items_per_block ∧
    (transform rt input output size f stream debug_synchronous).2.filter Event.isLaunch
      = [Event.hipLaunchKernelGGL block_size items_per_thread
          (dim3 (ceil_div size items_per_block)) (dim3 block_size) 0 stream input size output f] ∧
    dim3 block_size = 256 ∧
    (size ≤ (2 ^ 32 - 1) * 1024 →
      dim3 (ceil_div size items_per_block) = ceil_div size items_per_block) := by
  have hnb : number_of_blocks size = ceil_div size items_per_block := by
    rw [number_of_blocks_of_le hsize, items_per_block_eq, ceil_div_1024]
  refine ⟨⟨by decide, rfl, rfl, by decide⟩, hnb, ?_, by decide, ?_⟩
  · rw [transform_launches, hnb]
  · intro h
    rw [items_per_block_eq, ceil_div_1024]
    unfold dim3
    norm_num at h ⊢
    omega

/-- C4 witness: `size = 2049` needs three blocks. -/
theorem transform_number_of_blocks_witness :
    2049 ≤ 2 ^ 64 - 1024 ∧ number_of_blocks 2049 = 3 ∧ ceil_div 2049 items_per_block = 3 := by
  have h := transform_number_of_blocks ⟨0, 0, 0, 0⟩ ⟨100⟩ ⟨200⟩ 2049 (fun a : Nat => a) 0 false
    (by decide)
  exact ⟨by decide, h.2.1.trans (by decide), by decide⟩

/-- C10: for every `size` with `0 < size ≤ 2^64 - 1024`, the computed `number_of_blocks`
satisfies `(number_of_blocks - 1) * 1024 < size ≤ number_of_blocks * 1024`: every index
`k < size` lies in the tile of block `k / 1024 < number_of_blocks`, and the last block's
tile is not empty. -/
theorem number_of_blocks_covers (size : Nat) (hpos : 0 < size) (hsize : size ≤ 2 ^ 64 - 1024) :
    items_per_block = 1024 ∧
    (number_of_blocks size - 1) * items_per_block < size ∧
    size ≤ number_of_blocks size * items_per_block ∧
    (∀ k, k < size → k / items_per_block < number_of_blocks size) ∧
    0 < number_of_blocks size := by
  rw [number_of_blocks_of_le hsize, items_per_block_eq]
  refine ⟨rfl, ?_, ?_, ?_, ?_⟩
  · omega
  · omega
  · intro k hk
    omega
  · omega

/-- C10 witness: `size = 1025` takes two blocks, the second holding one element. -/
theorem number_of_blocks_covers_witness :
    0 < 1025 ∧ 1025 ≤ 2 ^ 64 - 1024 ∧ (number_of_blocks 1025 - 1) * items_per_block < 1025 ∧
    1025 ≤ number_of_blocks 1025 * items_per_block :=
  ⟨by decide, by decide,
    (number_of_blocks_covers 1025 (by decide) (by decide)).2.1,
    (number_of_blocks_covers 1025 (by decide) (by decide)).2.2.1⟩

/-- C5 (as stated, refuted): with `size = 0` the trace of `transform` still contains a
kernel launch request, and when the launch check reports an error the call does not
return `hipSuccess`. -/
theorem transform_size_zero_counterexample :
    (transform ⟨0, 0, 0, 0⟩ ⟨100⟩ ⟨200⟩ 0 (fun a : Nat => a) 0 false).2.any Event.isLaunch = true ∧
    (transform ⟨1, 0, 0, 0⟩ ⟨100⟩ ⟨200⟩ 0 (fun a : Nat => a) 0 false).1 ≠ hipSuccess := by
  constructor
  · rw [transform_trace_eq]
    rfl
  · rw [transform_status]
    decide

/-- C5 (amended): when `size == 0`, `number_of_blocks` is 0 and `transform` still issues
exactly one kernel launch, with a grid of zero blocks; no thread runs, so no store is made
and output memory is unchanged; the call returns `hipSuccess` exactly when the launch check
and, in debug mode, the stream synchronization report success. -/
theorem transform_size_zero {α β : Type} (rt : Runtime) (input output : DevicePtr) (f : α → β)
    (stream : hipStream_t) (debug_synchronous : Bool) (inMem : Nat → α) (outMem : Nat → β) :
    number_of_blocks 0 = 0 ∧
    (transform rt input output 0 f stream debug_synchronous).2.filter Event.isLaunch
      = [Event.hipLaunchKernelGGL block_size items_per_thread 0 (dim3 block_size) 0 stream
          input 0 output f] ∧
    (∀ e ∈ (transform rt input output 0 f stream debug_synchronous).2, e.stores inMem = []) ∧
    device_complete inMem (transform rt input output 0 f stream debug_synchronous).2 outMem
      = outMem ∧
    ((transform rt input output 0 f stream debug_synchronous).1 = hipSuccess ↔
      rt.hipPeekAtLastError = hipSuccess ∧
        (debug_synchronous = true → rt.hipStreamSynchronize = hipSuccess)) := by
  have hnb : dim3 (number_of_blocks 0) = 0 := by decide
  refine ⟨number_of_blocks_zero, ?_, ?_, ?_, ?_⟩
  · rw [transform_launches, hnb]
  · obtain ⟨pre, post, h, hpre, hpost⟩ :=
      transform_trace_split rt input output 0 f stream debug_synchronous
    rw [h, hnb]
    intro e he
    rcases List.mem_append.1 he with h1 | h1
    · exact stores_of_not_launch inMem e (isLaunch_of_isCout e (hpre e h1))
    · rcases List.mem_cons.1 h1 with h2 | h2
      · rw [h2, stores_launch, run_grid_zero]
      · rcases List.mem_cons.1 h2 with h3 | h3
        · rw [h3]; rfl
        · exact stores_of_not_launch inMem e (hpost e h3).1
  · rw [device_complete_transform, hnb, run_grid_zero, apply_stores_nil]
  · rw [transform_status]
    by_cases h1 : rt.hipPeekAtLastError = hipSuccess <;>
      by_cases h2 : rt.hipStreamSynchronize = hipSuccess <;>
      cases debug_synchronous <;> simp [h1, h2]

/-- C6 (as stated, refuted): called with a null input pointer and `size = 8`, `transform`
returns `hipSuccess`, not an argument error, and its trace contains a kernel launch. -/
theorem transform_null_pointer_counterexample :
    (transform ⟨0, 0, 0, 0⟩ DevicePtr.null ⟨200⟩ 8 (fun a : Nat => a) 0 false).1 = hipSuccess ∧
    (transform ⟨0, 0, 0, 0⟩ DevicePtr.null ⟨200⟩ 8 (fun a : Nat => a) 0 false).2.any
      Event.isLaunch = true := by
  constructor
  · rw [transform_status]
    decide
  · rw [transform_trace_eq]
    rfl

/-- C6 (amended): `transform` does not validate its arguments. For every call with
`size > 0` in which the input or the output pointer is null, it issues the kernel launch
all the same, passing the pointers on unchanged, and returns the status of the launch
check, or in debug mode that of the stream synchronization, and `hipSuccess` when both
report success. -/
theorem transform_null_pointer {F : Type} (rt : Runtime) (input output : DevicePtr) (size : Nat)
    (f : F) (stream : hipStream_t) (debug_synchronous : Bool)
    (_hnull : input = DevicePtr.null ∨ output = DevicePtr.null) (_hsize : 0 < size) :
    (transform rt input output size f stream debug_synchronous).2.filter Event.isLaunch
      = [Event.hipLaunchKernelGGL block_size items_per_thread (dim3 (number_of_blocks size))
          (dim3 block_size) 0 stream input size output f] ∧
    (transform rt input output size f stream debug_synchronous).1
      = (if rt.hipPeekAtLastError ≠ hipSuccess then rt.hipPeekAtLastError
         else if debug_synchronous = true ∧ rt.hipStreamSynchronize ≠ hipSuccess then
           rt.hipStreamSynchronize
         else hipSuccess) :=
  ⟨transform_launches rt input output size f stream debug_synchronous,
   transform_status rt input output size f stream debug_synchronous⟩

/-- C6 witness: a null input pointer with `size = 8`. -/
theorem transform_null_pointer_witness :
    (DevicePtr.null = DevicePtr.null ∨ (⟨200⟩ : DevicePtr) = DevicePtr.null) ∧ 0 < 8 ∧
    (transform ⟨0, 0, 0, 0⟩ DevicePtr.null ⟨200⟩ 8 (fun a : Nat => a) 0 false).2.filter
        Event.isLaunch
      = [Event.hipLaunchKernelGGL block_size items_per_thread (dim3 (number_of_blocks 8))
          (dim3 block_size) 0 0 DevicePtr.null 8 ⟨200⟩ (fun a : Nat => a)] :=
  ⟨Or.inl rfl, by decide,
    (transform_null_pointer ⟨0, 0, 0, 0⟩ DevicePtr.null ⟨200⟩ 8 (fun a : Nat => a) 0 false
      (Or.inl rfl) (by decide)).1⟩

/-- C7: whatever the value of `debug_synchronous`, the event right after the kernel launch
is the launch check `hipPeekAtLastError()`, and it is the only launch check; when it
reports an error `transform` returns that error, a status other than `hipSuccess`, and the
trace holds no stream synchronization; and `transform` returns `hipSuccess` only if the
launch check reported `hipSuccess`. -/
theorem transform_launch_check {F : Type} (rt : Runtime) (input output : DevicePtr) (size : Nat)
    (f : F) (stream : hipStream_t) (debug_synchronous : Bool) :
    (∃ pre post : List (Event F),
      (transform rt input output size f stream debug_synchronous).2
        = pre ++ (Event.hipLaunchKernelGGL block_size items_per_thread
            (dim3 (number_of_blocks size)) (dim3 block_size) 0 stream input size output f
          :: Event.hipPeekAtLastError :: post) ∧
      (∀ e ∈ pre, e.isCout = true) ∧ (∀ e ∈ post, e.isLaunch = false ∧ e.isPeek = false)) ∧
    (rt.hipPeekAtLastError ≠ hipSuccess →
      (transform rt input output size f stream debug_synchronous).1 = rt.hipPeekAtLastError ∧
      (transform rt input output size f stream debug_synchronous).1 ≠ hipSuccess ∧
      ∀ e ∈ (transform rt input output size f stream debug_synchronous).2, e.isSync = false) ∧
    ((transform rt input output size f stream debug_synchronous).1 = hipSuccess →
      rt.hipPeekAtLastError = hipSuccess) := by
  refine ⟨transform_trace_split rt input output size f stream debug_synchronous, ?_, ?_⟩
  · intro h
    have hs : (transform rt input output size f stream debug_synchronous).1
        = rt.hipPeekAtLastError := by
      rw [transform_status, if_pos h]
    refine ⟨hs, by rw [hs]; exact h, ?_⟩
    rw [transform_trace_eq]
    have h' : ¬ (rt.hipPeekAtLastError = hipSuccess ∧ debug_synchronous = true) :=
      fun hc => h hc.1
    rw [if_neg h']
    intro e he
    rcases List.mem_append.1 he with h1 | h1
    · split at h1
      · rcases List.mem_cons.1 h1 with h2 | h2
        · rw [h2]; rfl
        · rcases List.mem_cons.1 h2 with h3 | h3
          · rw [h3]; rfl
          · rw [List.mem_singleton.1 h3]; rfl
      · exact absurd h1 (List.not_mem_nil _)
    · rcases List.mem_cons.1 h1 with h2 | h2
      · rw [h2]; rfl
      · rw [List.mem_singleton.1 h2]; rfl
  · intro h
    by_contra hne
    rw [transform_status, if_pos hne] at h
    exact hne h

/-- C7 witness: a launch check that reports error 9 in debug mode. -/
theorem transform_launch_check_witness :
    (transform ⟨9, 0, 0, 5⟩ ⟨100⟩ ⟨200⟩ 8 (fun a : Nat => a) 0 true).1 = 9 ∧
    ∀ e ∈ (transform ⟨9, 0, 0, 5⟩ ⟨100⟩ ⟨200⟩ 8 (fun a : Nat => a) 0 true).2, e.isSync = false :=
  ⟨((transform_launch_check ⟨9, 0, 0, 5⟩ ⟨100⟩ ⟨200⟩ 8 (fun a : Nat => a) 0 true).2.1
      (by decide)).1,
   ((transform_launch_check ⟨9, 0, 0, 5⟩ ⟨100⟩ ⟨200⟩ 8 (fun a : Nat => a) 0 true).2.1
      (by decide)).2.2⟩

/-- C8: when `debug_synchronous` is true and the launch check passed, `transform`
synchronizes the stream after the launch; if the synchronization reports a fault, that fault
is returned; otherwise the diagnostics output receives the name `"transform_kernel"`, the
`size` and the elapsed time between the two clock readings, and `hipSuccess` is returned. -/
theorem transform_debug_sync {F : Type} (rt : Runtime) (input output : DevicePtr) (size : Nat)
    (f : F) (stream : hipStream_t) (hpeek : rt.hipPeekAtLastError = hipSuccess) :
    (rt.hipStreamSynchronize ≠ hipSuccess →
      transform rt input output size f stream true
        = (rt.hipStreamSynchronize,
           [Event.cout [CoutItem.text "block_size ", CoutItem.count block_size,
                        CoutItem.text "\n"],
            Event.cout [CoutItem.text "number of blocks ", CoutItem.count (number_of_blocks size),
                        CoutItem.text "\n"],
            Event.cout [CoutItem.text "items_per_block ", CoutItem.count items_per_block,
                        CoutItem.text "\n"],
            Event.hipLaunchKernelGGL block_size items_per_thread (dim3 (number_of_blocks size))
              (dim3 block_size) 0 stream input size output f,
            Event.hipPeekAtLastError,
            Event.cout [CoutItem.text "transform_kernel", CoutItem.text "(", CoutItem.count size,
                        CoutItem.text ")"],
            Event.hipStreamSynchronize stream])) ∧
    (rt.hipStreamSynchronize = hipSuccess →
      transform rt input output size f stream true
        = (hipSuccess,
           [Event.cout [CoutItem.text "block_size ", CoutItem.count block_size,
                        CoutItem.text "\n"],
            Event.cout [CoutItem.text "number of blocks ", CoutItem.count (number_of_blocks size),
                        CoutItem.text "\n"],
            Event.cout [CoutItem.text "items_per_block ", CoutItem.count items_per_block,
                        CoutItem.text "\n"],
            Event.hipLaunchKernelGGL block_size items_per_thread (dim3 (number_of_blocks size))
              (dim3 block_size) 0 stream input size output f,
            Event.hipPeekAtLastError,
            Event.cout [CoutItem.text "transform_kernel", CoutItem.text "(", CoutItem.count size,
                        CoutItem.text ")"],
            Event.hipStreamSynchronize stream,
            Event.cout [CoutItem.text " ", CoutItem.elapsed (rt.now_end - rt.now_start),
                        CoutItem.text " ms", CoutItem.text "\n"]])) := by
  constructor
  · intro hs
    apply Prod.ext
    · rw [transform_status, if_neg (not_not.2 hpeek), if_pos ⟨rfl, hs⟩]
    · rw [transform_trace_eq, if_pos rfl, if_pos ⟨hpeek, rfl⟩, if_neg hs]
      rfl
  · intro hs
    apply Prod.ext
    · rw [transform_status, if_neg (not_not.2 hpeek), if_neg (fun hc => hc.2 hs)]
    · rw [transform_trace_eq, if_pos rfl, if_pos ⟨hpeek, rfl⟩, if_pos hs]
      rfl

/-- C8 witness: a debug-mode call of 8 elements whose clock readings are 3 and 10. -/
theorem transform_debug_sync_witness :
    (⟨0, 0, 3, 10⟩ : Runtime).hipPeekAtLastError = hipSuccess ∧
    (transform ⟨0, 0, 3, 10⟩ ⟨100⟩ ⟨200⟩ 8 (fun a : Nat => a) 0 true).1 = hipSuccess ∧
    (transform ⟨0, 0, 3, 10⟩ ⟨100⟩ ⟨200⟩ 8 (fun a : Nat => a) 0 true).2.getLast?
      = some (Event.cout [CoutItem.text " ", CoutItem.elapsed 7, CoutItem.text " ms",
                          CoutItem.text "\n"]) := by
  have h := (transform_debug_sync ⟨0, 0, 3, 10⟩ ⟨100⟩ ⟨200⟩ 8 (fun a : Nat => a) 0 rfl).2 rfl
  refine ⟨rfl, ?_, ?_⟩
  · rw [h]
  · rw [h]
    rfl

/-- C9: when `debug_synchronous` is false the whole trace of `transform` is the kernel
launch on the given stream followed by the launch check: the stream is never synchronized,
nothing is written to the diagnostics output, exactly one kernel is enqueued, and the
status returned is that of the launch check. -/
theorem transform_async {F : Type} (rt : Runtime) (input output : DevicePtr) (size : Nat)
    (f : F) (stream : hipStream_t) :
    (transform rt input output size f stream false).2
      = [Event.hipLaunchKernelGGL block_size items_per_thread (dim3 (number_of_blocks size))
          (dim3 block_size) 0 stream input size output f, Event.hipPeekAtLastError] ∧
    (∀ e ∈ (transform rt input output size f stream false).2,
      e.isSync = false ∧ e.isCout = false) ∧
    ((transform rt input output size f stream false).2.filter Event.isLaunch).length = 1 ∧
    (transform rt input output size f stream false).1 = rt.hipPeekAtLastError := by
  have htr : (transform rt input output size f stream false).2
      = [Event.hipLaunchKernelGGL block_size items_per_thread (dim3 (number_of_blocks size))
          (dim3 block_size) 0 stream input size output f, Event.hipPeekAtLastError] := by
    rw [transform_trace_eq, if_neg (by decide), if_neg (fun hc => absurd hc.2 (by decide))]
    rfl
  refine ⟨htr, ?_, ?_, ?_⟩
  · rw [htr]
    intro e he
    rcases List.mem_cons.1 he with h | h
    · rw [h]; exact ⟨rfl, rfl⟩
    · rw [List.mem_singleton.1 h]; exact ⟨rfl, rfl⟩
  · rw [transform_launches]
    rfl
  · rw [transform_status]
    by_cases h : rt.hipPeekAtLastError = hipSuccess
    · rw [if_neg (not_not.2 h), if_neg (fun hc => absurd hc.1 (by decide)), h]
    · rw [if_pos h]

/-! ## The merge-path search -/

/-- The binary search ends at a point of `[lo, hi]` where the comparison switches: it moved
right at the candidate just before the result, unless the result is `lo`, and did not move
right at the result, unless the result is `hi`. -/
theorem merge_path_search_spec {κ : Type} (cmp : κ → κ → Bool) (A B : List κ) (d : Nat)
    (fuel lo hi : Nat) (hle : lo ≤ hi) (hfuel : hi - lo ≤ fuel) :
    lo ≤ detail.merge_path_search cmp A B d fuel lo hi ∧
    detail.merge_path_search cmp A B d fuel lo hi ≤ hi ∧
    (detail.merge_path_search cmp A B d fuel lo hi = lo ∨
      (1 ≤ detail.merge_path_search cmp A B d fuel lo hi ∧
        detail.merge_path_right cmp A B d
          (detail.merge_path_search cmp A B d fuel lo hi - 1) = true)) ∧
    (detail.merge_path_search cmp A B d fuel lo hi = hi ∨
      detail.merge_path_right cmp A B d
        (detail.merge_path_search cmp A B d fuel lo hi) = false) := by
  induction fuel generalizing lo hi with
  | zero =>
    have : lo = hi := by omega
    subst this
    simp [detail.merge_path_search]
  | succ fuel ih =>
    rw [detail.merge_path_search]
    by_cases hlt : lo < hi
    · rw [if_pos hlt]
      simp only
      by_cases hr : detail.merge_path_right cmp A B d ((lo + hi) / 2) = true
      · rw [if_pos hr]
        obtain ⟨h1, h2, h3, h4⟩ := ih ((lo + hi) / 2 + 1) hi (by omega) (by omega)
        refine ⟨by omega, h2, ?_, h4⟩
        rcases h3 with h3 | h3
        · right
          rw [h3]
          exact ⟨by omega, by simpa using hr⟩
        · exact Or.inr h3
      · rw [if_neg hr]
        obtain ⟨h1, h2, h3, h4⟩ := ih lo ((lo + hi) / 2) (by omega) (by omega)
        refine ⟨h1, by omega, h3, ?_⟩
        rcases h4 with h4 | h4
        · right
          rw [h4]
          simpa using hr
        · exact Or.inr h4
    · rw [if_neg hlt]
      have : lo = hi := by omega
      subst this
      simp

/-! ## Sorted inputs and the partition invariant -/

theorem cmp_irrefl {ε : Type} {cmp : ε → ε → Bool} (hswo : strict_weak_order cmp) (a : ε) :
    cmp a a = false := by
  cases h : cmp a a with
  | false => rfl
  | true =>
    have h2 := hswo.1 a a h
    rw [h] at h2
    exact absurd h2 (by decide)

/-- In a sorted sequence a later element is never ordered before an earlier one. -/
theorem sorted_getElem? {ε : Type} {cmp : ε → ε → Bool} (hswo : strict_weak_order cmp)
    {A : List ε} (hA : is_sorted cmp A) {a a' : Nat} {x x' : ε} (h : a ≤ a')
    (hx : A[a]? = some x) (hx' : A[a']? = some x') : cmp x' x = false := by
  rcases Nat.eq_or_lt_of_le h with heq | hlt
  · subst heq
    rw [hx] at hx'
    cases hx'
    exact cmp_irrefl hswo x
  · obtain ⟨h1, rfl⟩ := List.getElem?_eq_some_iff.1 hx
    obtain ⟨h2, rfl⟩ := List.getElem?_eq_some_iff.1 hx'
    exact (List.pairwise_iff_getElem.1 hA) a a' h1 h2 hlt

/-- The partition invariant at the point found on diagonal `d`: the point lies on the
diagonal and inside both sequences; no element of the second sequence at or after the
boundary is ordered before an element of the first sequence before the boundary; and every
element of the second sequence before the boundary is ordered strictly before every element
of the first sequence at or after the boundary. -/
theorem merge_path_invariant {ε : Type} {cmp : ε → ε → Bool} (hswo : strict_weak_order cmp)
    {A B : List ε} (hA : is_sorted cmp A) (hB : is_sorted cmp B) (d : Nat)
    (hd : d ≤ A.length + B.length) :
    detail.merge_path cmp A B d ≤ d ∧
    detail.merge_path cmp A B d ≤ A.length ∧
    d - detail.merge_path cmp A B d ≤ B.length ∧
    (∀ a b x y, a < detail.merge_path cmp A B d → d - detail.merge_path cmp A B d ≤ b →
      A[a]? = some x → B[b]? = some y → cmp y x = false) ∧
    (∀ a b x y, detail.merge_path cmp A B d ≤ a → b < d - detail.merge_path cmp A B d →
      A[a]? = some x → B[b]? = some y → cmp y x = true) := by
  unfold detail.merge_path
  simp only
  obtain ⟨h1, h2, h3, h4⟩ := merge_path_search_spec cmp A B d
    (min d A.length - (d - B.length)) (d - B.length) (min d A.length) (by omega) (le_refl _)
  generalize detail.merge_path_search cmp A B d (min d A.length - (d - B.length))
    (d - B.length) (min d A.length) = r at h1 h2 h3 h4
  refine ⟨by omega, by omega, by omega, ?_, ?_⟩
  · intro a b x y ha hb hx hy
    have hbl : b < B.length := (List.getElem?_eq_some_iff.1 hy).1
    rcases h3 with h3 | ⟨hr1, h3⟩
    · omega
    · unfold detail.merge_path_right at h3
      have hidx : d - 1 - (r - 1) = d - r := by omega
      rw [hidx] at h3
      have hal : r - 1 < A.length := by omega
      have hbl' : d - r < B.length := by omega
      rw [List.getElem?_eq_getElem hal, List.getElem?_eq_getElem hbl'] at h3
      simp only [Bool.not_eq_true'] at h3
      have hx0 : cmp A[r - 1] x = false :=
        sorted_getElem? hswo hA (by omega : a ≤ r - 1) hx (List.getElem?_eq_getElem hal)
      have hy0 : cmp y B[d - r] = false :=
        sorted_getElem? hswo hB hb (List.getElem?_eq_getElem hbl') hy
      exact hswo.2 _ _ _ (hswo.2 _ _ _ hy0 h3) hx0
  · intro a b x y ha hb hx hy
    have hal : a < A.length := (List.getElem?_eq_some_iff.1 hx).1
    rcases h4 with h4 | h4
    · omega
    · unfold detail.merge_path_right at h4
      have hal' : r < A.length := by omega
      have hbl' : d - 1 - r < B.length := by omega
      rw [List.getElem?_eq_getElem hal', List.getElem?_eq_getElem hbl'] at h4
      simp only [Bool.not_eq_false'] at h4
      have hx0 : cmp x A[r] = false :=
        sorted_getElem? hswo hA ha (List.getElem?_eq_getElem hal') hx
      have hy0 : cmp B[d - 1 - r] y = false :=
        sorted_getElem? hswo hB (by omega : b ≤ d - 1 - r) hy (List.getElem?_eq_getElem hbl')
      cases hc : cmp y x with
      | true => rfl
      | false =>
        have := hswo.2 _ _ _ (hswo.2 _ _ _ hy0 hc) hx0
        rw [h4] at this
        exact absurd this (by decide)

/-! ## The two-pointer merge -/

/-- Merging splits at a partition point: when no element of `B2` is ordered before an
element of `A1`, and every element of `B1` is ordered before every element of `A2`, the
merge of `A1 ++ A2` and `B1 ++ B2` is the merge of `A1` and `B1` followed by the merge of
`A2` and `B2`. -/
theorem serial_merge_append {ε : Type} (cmp : ε → ε → Bool) (A2 B2 : List ε) (m n : Nat)
    (A1 B1 : List ε) (hn : n = A1.length + B1.length)
    (hL : ∀ x ∈ A1, ∀ y ∈ B2, cmp y x = false) (hR : ∀ y ∈ B1, ∀ x ∈ A2, cmp y x = true) :
    detail.serial_merge cmp (n + m) (A1 ++ A2) (B1 ++ B2)
      = detail.serial_merge cmp n A1 B1 ++ detail.serial_merge cmp m A2 B2 := by
  induction n generalizing A1 B1 with
  | zero =>
    have h1 : A1 = [] := List.length_eq_zero.1 (by omega)
    have h2 : B1 = [] := List.length_eq_zero.1 (by omega)
    subst h1 h2
    simp [detail.serial_merge]
  | succ n ih =>
    rw [Nat.add_right_comm n 1 m]
    cases A1 with
    | nil =>
      cases B1 with
      | nil => simp at hn
      | cons y ys =>
        have hlen : n = ([] : List ε).length + ys.length := by simp at hn ⊢; omega
        have hR' : ∀ y' ∈ ys, ∀ x ∈ A2, cmp y' x = true :=
          fun y' hy' => hR y' (List.mem_cons_of_mem _ hy')
        have key := ih [] ys hlen hL hR'
        cases A2 with
        | nil =>
          simp only [List.nil_append, List.cons_append, detail.serial_merge, List.cons.injEq,
            true_and] at key ⊢
          exact key
        | cons x xs =>
          have hyx : cmp y x = true := hR y (List.mem_cons_self _ _) x (List.mem_cons_self _ _)
          simp only [List.nil_append, List.cons_append, detail.serial_merge, hyx, if_true,
            List.cons.injEq, true_and] at key ⊢
          exact key
    | cons x xs =>
      have hL' : ∀ x' ∈ xs, ∀ y ∈ B2, cmp y x' = false :=
        fun x' hx' => hL x' (List.mem_cons_of_mem _ hx')
      cases B1 with
      | nil =>
        have hlen : n = xs.length + ([] : List ε).length := by simp at hn ⊢; omega
        have key := ih xs [] hlen hL' hR
        cases B2 with
        | nil =>
          simp only [List.nil_append, List.cons_append, detail.serial_merge, List.cons.injEq,
            true_and] at key ⊢
          exact key
        | cons y ys =>
          have hyx : cmp y x = false := hL x (List.mem_cons_self _ _) y (List.mem_cons_self _ _)
          simp only [List.nil_append, List.cons_append, detail.serial_merge, hyx,
            Bool.false_eq_true, if_false, List.cons.injEq, true_and] at key ⊢
          exact key
      | cons y ys =>
        have hR' : ∀ y' ∈ ys, ∀ x ∈ A2, cmp y' x = true :=
          fun y' hy' => hR y' (List.mem_cons_of_mem _ hy')
        by_cases hyx : cmp y x = true
        · have hlen : n = (x :: xs).length + ys.length := by simp at hn ⊢; omega
          have key := ih (x :: xs) ys hlen hL hR'
          simp only [List.cons_append, detail.serial_merge, hyx, if_true, List.cons.injEq,
            true_and] at key ⊢
          exact key
        · have hlen : n = xs.length + (y :: ys).length := by simp at hn ⊢; omega
          have hyx' : cmp y x = false := by simpa using hyx
          have key := ih xs (y :: ys) hlen hL' hR
          simp only [List.cons_append, detail.serial_merge, hyx', Bool.false_eq_true, if_false,
            List.cons.injEq, true_and] at key ⊢
          exact key

theorem serial_merge_mem {ε : Type} (cmp : ε → ε → Bool) (n : Nat) (A B : List ε) (z : ε)
    (hz : z ∈ detail.serial_merge cmp n A B) : z ∈ A ∨ z ∈ B := by
  induction n generalizing A B with
  | zero => simp [detail.serial_merge] at hz
  | succ n ih =>
    cases A with
    | nil =>
      cases B with
      | nil => simp [detail.serial_merge] at hz
      | cons y ys =>
        simp only [detail.serial_merge, List.mem_cons] at hz
        rcases hz with rfl | hz
        · exact Or.inr (List.mem_cons_self _ _)
        · rcases ih _ _ hz with h | h
          · exact Or.inl h
          · exact Or.inr (List.mem_cons_of_mem _ h)
    | cons x xs =>
      cases B with
      | nil =>
        simp only [detail.serial_merge, List.mem_cons] at hz
        rcases hz with rfl | hz
        · exact Or.inl (List.mem_cons_self _ _)
        · rcases ih _ _ hz with h | h
          · exact Or.inl (List.mem_cons_of_mem _ h)
          · exact Or.inr h
      | cons y ys =>
        by_cases hyx : cmp y x = true
        · simp only [detail.serial_merge, hyx, if_true, List.mem_cons] at hz
          rcases hz with rfl | hz
          · exact Or.inr (List.mem_cons_self _ _)
          · rcases ih _ _ hz with h | h
            · exact Or.inl h
            · exact Or.inr (List.mem_cons_of_mem _ h)
        · have hyx' : cmp y x = false := by simpa using hyx
          simp only [detail.serial_merge, hyx', Bool.false_eq_true, if_false,
            List.mem_cons] at hz
          rcases hz with rfl | hz
          · exact Or.inl (List.mem_cons_self _ _)
          · rcases ih _ _ hz with h | h
            · exact Or.inl (List.mem_cons_of_mem _ h)
            · exact Or.inr h

theorem serial_merge_length {ε : Type} (cmp : ε → ε → Bool) (n : Nat) (A B : List ε)
    (hn : n = A.length + B.length) : (detail.serial_merge cmp n A B).length = n := by
  induction n generalizing A B with
  | zero => simp [detail.serial_merge]
  | succ n ih =>
    cases A with
    | nil =>
      cases B with
      | nil => simp at hn
      | cons y ys =>
        simp only [detail.serial_merge, List.length_cons, Nat.add_right_cancel_iff]
        exact ih [] ys (by simp at hn ⊢; omega)
    | cons x xs =>
      cases B with
      | nil =>
        simp only [detail.serial_merge, List.length_cons, Nat.add_right_cancel_iff]
        exact ih xs [] (by simp at hn ⊢; omega)
      | cons y ys =>
        by_cases hyx : cmp y x = true
        · simp only [detail.serial_merge, hyx, if_true, List.length_cons,
            Nat.add_right_cancel_iff]
          exact ih (x :: xs) ys (by simp at hn ⊢; omega)
        · have hyx' : cmp y x = false := by simpa using hyx
          simp only [detail.serial_merge, hyx', Bool.false_eq_true, if_false, List.length_cons,
            Nat.add_right_cancel_iff]
          exact ih xs (y :: ys) (by simp at hn ⊢; omega)

theorem serial_merge_perm {ε : Type} (cmp : ε → ε → Bool) (n : Nat) (A B : List ε)
    (hn : n = A.length + B.length) : (detail.serial_merge cmp n A B).Perm (A ++ B) := by
  induction n generalizing A B with
  | zero =>
    have h1 : A = [] := List.length_eq_zero.1 (by omega)
    have h2 : B = [] := List.length_eq_zero.1 (by omega)
    subst h1 h2
    simp [detail.serial_merge]
  | succ n ih =>
    cases A with
    | nil =>
      cases B with
      | nil => simp at hn
      | cons y ys =>
        simp only [detail.serial_merge, List.nil_append]
        exact List.Perm.cons y (by simpa using ih [] ys (by simp at hn ⊢; omega))
    | cons x xs =>
      cases B with
      | nil =>
        simp only [detail.serial_merge, List.append_nil]
        exact List.Perm.cons x (by simpa using ih xs [] (by simp at hn ⊢; omega))
      | cons y ys =>
        by_cases hyx : cmp y x = true
        · simp only [detail.serial_merge, hyx, if_true]
          have h := ih (x :: xs) ys (by simp at hn ⊢; omega)
          exact (List.Perm.cons y h).trans List.perm_middle.symm
        · have hyx' : cmp y x = false := by simpa using hyx
          simp only [detail.serial_merge, hyx', Bool.false_eq_true, if_false, List.cons_append]
          exact List.Perm.cons x (ih xs (y :: ys) (by simp at hn ⊢; omega))

theorem serial_merge_sorted {ε : Type} {cmp : ε → ε → Bool} (hswo : strict_weak_order cmp)
    (n : Nat) (A B : List ε) (hA : is_sorted cmp A) (hB : is_sorted cmp B) :
    is_sorted cmp (detail.serial_merge cmp n A B) := by
  induction n generalizing A B with
  | zero => simp [detail.serial_merge, is_sorted]
  | succ n ih =>
    cases A with
    | nil =>
      cases B with
      | nil => simp [detail.serial_merge, is_sorted]
      | cons y ys =>
        simp only [detail.serial_merge]
        have hB' := List.pairwise_cons.1 hB
        refine List.pairwise_cons.2 ⟨?_, ih [] ys hA hB'.2⟩
        intro z hz
        rcases serial_merge_mem cmp n [] ys z hz with h | h
        · simp at h
        · exact hB'.1 z h
    | cons x xs =>
      have hA' := List.pairwise_cons.1 hA
      cases B with
      | nil =>
        simp only [detail.serial_merge]
        refine List.pairwise_cons.2 ⟨?_, ih xs [] hA'.2 hB⟩
        intro z hz
        rcases serial_merge_mem cmp n xs [] z hz with h | h
        · exact hA'.1 z h
        · simp at h
      | cons y ys =>
        have hB' := List.pairwise_cons.1 hB
        by_cases hyx : cmp y x = true
        · simp only [detail.serial_merge, hyx, if_true]
          refine List.pairwise_cons.2 ⟨?_, ih (x :: xs) ys hA hB'.2⟩
          intro z hz
          have hxy : cmp x y = false := hswo.1 y x hyx
          rcases serial_merge_mem cmp n (x :: xs) ys z hz with h | h
          · rcases List.mem_cons.1 h with rfl | h
            · exact hxy
            · exact hswo.2 _ _ _ (hA'.1 z h) hxy
          · exact hB'.1 z h
        · have hyx' : cmp y x = false := by simpa using hyx
          simp only [detail.serial_merge, hyx', Bool.false_eq_true, if_false]
          refine List.pairwise_cons.2 ⟨?_, ih xs (y :: ys) hA'.2 hB⟩
          intro z hz
          rcases serial_merge_mem cmp n xs (y :: ys) z hz with h | h
          · exact hA'.1 z h
          · rcases List.mem_cons.1 h with rfl | h
            · exact hyx'
            · exact hswo.2 _ _ _ (hB'.1 z h) hyx'

/-! ## Tiles -/

theorem mem_drop_index {ε : Type} (A : List ε) (p : Nat) (x : ε) (hx : x ∈ A.drop p) :
    ∃ a, p ≤ a ∧ A[a]? = some x := by
  obtain ⟨n, hn⟩ := List.mem_iff_getElem?.1 hx
  rw [List.getElem?_drop] at hn
  exact ⟨p + n, by omega, hn⟩

theorem mem_take_drop_index {ε : Type} (A : List ε) (p q : Nat) (x : ε)
    (hx : x ∈ (A.drop p).take q) : ∃ a, a < p + q ∧ A[a]? = some x := by
  obtain ⟨n, hn⟩ := List.mem_iff_getElem?.1 hx
  rw [List.getElem?_take] at hn
  split at hn
  · rw [List.getElem?_drop] at hn
    exact ⟨p + n, by omega, hn⟩
  · exact absurd hn (by simp)

/-- Partition points do not decrease along the diagonals. -/
theorem merge_path_mono {ε : Type} {cmp : ε → ε → Bool} (hswo : strict_weak_order cmp)
    {A B : List ε} (hA : is_sorted cmp A) (hB : is_sorted cmp B) (d0 d1 : Nat) (h01 : d0 ≤ d1)
    (h1 : d1 ≤ A.length + B.length) :
    detail.merge_path cmp A B d0 ≤ detail.merge_path cmp A B d1 ∧
    d0 - detail.merge_path cmp A B d0 ≤ d1 - detail.merge_path cmp A B d1 := by
  obtain ⟨p1, p2, p3, pL, pR⟩ := merge_path_invariant hswo hA hB d0 (by omega)
  obtain ⟨q1, q2, q3, qL, qR⟩ := merge_path_invariant hswo hA hB d1 h1
  generalize detail.merge_path cmp A B d0 = i0 at *
  generalize detail.merge_path cmp A B d1 = i1 at *
  constructor
  · by_contra hc
    have ha : i1 < A.length := by omega
    have hb : d0 - i0 < B.length := by omega
    have e1 := pL i1 (d0 - i0) A[i1] B[d0 - i0] (by omega) (le_refl _)
      (List.getElem?_eq_getElem ha) (List.getElem?_eq_getElem hb)
    have e2 := qR i1 (d0 - i0) A[i1] B[d0 - i0] (le_refl _) (by omega)
      (List.getElem?_eq_getElem ha) (List.getElem?_eq_getElem hb)
    rw [e1] at e2
    exact absurd e2 (by decide)
  · by_contra hc
    have ha : i0 < A.length := by omega
    have hb : d1 - i1 < B.length := by omega
    have e1 := pR i0 (d1 - i1) A[i0] B[d1 - i1] (le_refl _) (by omega)
      (List.getElem?_eq_getElem ha) (List.getElem?_eq_getElem hb)
    have e2 := qL i0 (d1 - i1) A[i0] B[d1 - i1] (by omega) (le_refl _)
      (List.getElem?_eq_getElem ha) (List.getElem?_eq_getElem hb)
    rw [e1] at e2
    exact absurd e2 (by decide)

/-- What remains to merge from diagonal `d0` on is the tile between `d0` and `d1` followed by
what remains from `d1` on. -/
theorem merge_tile {ε : Type} {cmp : ε → ε → Bool} (hswo : strict_weak_order cmp)
    {A B : List ε} (hA : is_sorted cmp A) (hB : is_sorted cmp B) (d0 d1 : Nat) (h01 : d0 ≤ d1)
    (h1 : d1 ≤ A.length + B.length) :
    detail.serial_merge cmp (A.length + B.length - d0)
        (A.drop (detail.merge_path cmp A B d0)) (B.drop (d0 - detail.merge_path cmp A B d0))
      = detail.serial_merge cmp
          ((detail.merge_path cmp A B d1 - detail.merge_path cmp A B d0)
            + ((d1 - detail.merge_path cmp A B d1) - (d0 - detail.merge_path cmp A B d0)))
          ((A.drop (detail.merge_path cmp A B d0)).take
            (detail.merge_path cmp A B d1 - detail.merge_path cmp A B d0))
          ((B.drop (d0 - detail.merge_path cmp A B d0)).take
            ((d1 - detail.merge_path cmp A B d1) - (d0 - detail.merge_path cmp A B d0)))
        ++ detail.serial_merge cmp (A.length + B.length - d1)
            (A.drop (detail.merge_path cmp A B d1))
            (B.drop (d1 - detail.merge_path cmp A B d1)) := by
  obtain ⟨m1, m2⟩ := merge_path_mono hswo hA hB d0 d1 h01 h1
  obtain ⟨p1, p2, p3, _, _⟩ := merge_path_invariant hswo hA hB d0 (by omega)
  obtain ⟨q1, q2, q3, qL, qR⟩ := merge_path_invariant hswo hA hB d1 h1
  generalize detail.merge_path cmp A B d0 = i0 at *
  generalize detail.merge_path cmp A B d1 = i1 at *
  have hA2 : A.drop i1 = (A.drop i0).drop (i1 - i0) := by
    rw [List.drop_drop]
    congr 1
    omega
  have hB2 : B.drop (d1 - i1) = (B.drop (d0 - i0)).drop ((d1 - i1) - (d0 - i0)) := by
    rw [List.drop_drop]
    congr 1
    omega
  have hsplitA : A.drop i0 = (A.drop i0).take (i1 - i0) ++ A.drop i1 := by
    rw [hA2, List.take_append_drop]
  have hsplitB : B.drop (d0 - i0)
      = (B.drop (d0 - i0)).take ((d1 - i1) - (d0 - i0)) ++ B.drop (d1 - i1) := by
    rw [hB2, List.take_append_drop]
  have hfuel : A.length + B.length - d0
      = ((i1 - i0) + ((d1 - i1) - (d0 - i0))) + (A.length + B.length - d1) := by omega
  have hlen : (i1 - i0) + ((d1 - i1) - (d0 - i0))
      = ((A.drop i0).take (i1 - i0)).length
        + ((B.drop (d0 - i0)).take ((d1 - i1) - (d0 - i0))).length := by
    simp only [List.length_take, List.length_drop]
    omega
  have key := serial_merge_append cmp (A.drop i1) (B.drop (d1 - i1))
    (A.length + B.length - d1) ((i1 - i0) + ((d1 - i1) - (d0 - i0)))
    ((A.drop i0).take (i1 - i0)) ((B.drop (d0 - i0)).take ((d1 - i1) - (d0 - i0))) hlen
    (by
      intro x hx y hy
      obtain ⟨a, ha, hxa⟩ := mem_take_drop_index A i0 (i1 - i0) x hx
      obtain ⟨b, hb, hyb⟩ := mem_drop_index B (d1 - i1) y hy
      exact qL a b x y (by omega) hb hxa hyb)
    (by
      intro y hy x hx
      obtain ⟨b, hb, hyb⟩ := mem_take_drop_index B (d0 - i0) ((d1 - i1) - (d0 - i0)) y hy
      obtain ⟨a, ha, hxa⟩ := mem_drop_index A i1 x hx
      exact qR a b x y ha (by omega) hxa hyb)
  rw [← hsplitA, ← hsplitB, ← hfuel] at key
  exact key

theorem le_ceil_div_mul (n T : Nat) (hT : 0 < T) : n ≤ ceil_div n T * T := by
  unfold ceil_div
  have h1 := Nat.div_add_mod n T
  have h2 := Nat.mod_lt n hT
  rw [Nat.add_mul, Nat.mul_comm (n / T) T]
  split
  · omega
  · rw [Nat.one_mul]
    omega

theorem diagonal_le (T n k : Nat) : detail.diagonal T n k ≤ n := by
  unfold detail.diagonal
  omega

theorem diagonal_mono (T n k : Nat) : detail.diagonal T n k ≤ detail.diagonal T n (k + 1) := by
  unfold detail.diagonal
  have : k * T ≤ (k + 1) * T := Nat.mul_le_mul_right T (Nat.le_succ k)
  omega

theorem diagonal_zero (T n : Nat) : detail.diagonal T n 0 = 0 := by
  unfold detail.diagonal
  simp

theorem diagonal_last (T n : Nat) (hT : 0 < T) : detail.diagonal T n (ceil_div n T) = n := by
  unfold detail.diagonal
  have := le_ceil_div_mul n T hT
  omega

/-- Block `k` finds partition point `k` in the scratch buffer. -/
theorem partition_kernel_getD {κ : Type} (cmp : κ → κ → Bool) (T : Nat) (A B : List κ) (k : Nat)
    (hk : k ≤ ceil_div (A.length + B.length) T) :
    (detail.partition_kernel cmp T A B).getD k (0, 0) = detail.partition_point cmp T A B k := by
  unfold detail.partition_kernel
  rw [List.getD_eq_getElem?_getD, List.getElem?_map, List.getElem?_range (by omega)]
  rfl

/-- The output tile of block `k`, in terms of the two diagonals that bound it. -/
theorem merge_kernel_eq {ε : Type} (cmp : ε → ε → Bool) (T : Nat) (A B : List ε) (k : Nat)
    (hk : k < ceil_div (A.length + B.length) T) :
    detail.merge_kernel cmp (detail.partition_kernel cmp T A B) A B k
      = detail.serial_merge cmp
          ((detail.merge_path cmp A B (detail.diagonal T (A.length + B.length) (k + 1))
              - detail.merge_path cmp A B (detail.diagonal T (A.length + B.length) k))
            + ((detail.diagonal T (A.length + B.length) (k + 1)
                - detail.merge_path cmp A B (detail.diagonal T (A.length + B.length) (k + 1)))
              - (detail.diagonal T (A.length + B.length) k
                - detail.merge_path cmp A B (detail.diagonal T (A.length + B.length) k))))
          ((A.drop (detail.merge_path cmp A B (detail.diagonal T (A.length + B.length) k))).take
            (detail.merge_path cmp A B (detail.diagonal T (A.length + B.length) (k + 1))
              - detail.merge_path cmp A B (detail.diagonal T (A.length + B.length) k)))
          ((B.drop (detail.diagonal T (A.length + B.length) k
                - detail.merge_path cmp A B (detail.diagonal T (A.length + B.length) k))).take
            ((detail.diagonal T (A.length + B.length) (k + 1)
                - detail.merge_path cmp A B (detail.diagonal T (A.length + B.length) (k + 1)))
              - (detail.diagonal T (A.length + B.length) k
                - detail.merge_path cmp A B (detail.diagonal T (A.length + B.length) k)))) := by
  unfold detail.merge_kernel
  rw [partition_kernel_getD cmp T A B k (by omega),
    partition_kernel_getD cmp T A B (k + 1) (by omega)]
  rfl

/-- The tiles of the first `m` blocks, followed by what remains to merge from diagonal
`d_m` on, make up the whole two-pointer merge. -/
theorem merge_tiles_prefix {ε : Type} {cmp : ε → ε → Bool} (hswo : strict_weak_order cmp)
    (T : Nat) {A B : List ε} (hA : is_sorted cmp A) (hB : is_sorted cmp B) (m : Nat)
    (hm : m ≤ ceil_div (A.length + B.length) T) :
    (List.range m).flatMap (detail.merge_kernel cmp (detail.partition_kernel cmp T A B) A B)
        ++ detail.serial_merge cmp
            (A.length + B.length - detail.diagonal T (A.length + B.length) m)
            (A.drop (detail.merge_path cmp A B (detail.diagonal T (A.length + B.length) m)))
            (B.drop (detail.diagonal T (A.length + B.length) m
              - detail.merge_path cmp A B (detail.diagonal T (A.length + B.length) m)))
      = detail.serial_merge cmp (A.length + B.length) A B := by
  induction m with
  | zero =>
    have h0 := (merge_path_invariant hswo hA hB 0 (Nat.zero_le _)).1
    have h0' : detail.merge_path cmp A B 0 = 0 := by omega
    rw [diagonal_zero, h0']
    simp
  | succ m ih =>
    rw [List.range_succ, List.flatMap_append, List.flatMap_singleton, List.append_assoc,
      merge_kernel_eq cmp T A B m (by omega),
      ← merge_tile hswo hA hB _ _ (diagonal_mono T _ m) (diagonal_le T _ (m + 1))]
    exact ih (by omega)

/-- For sorted inputs the tiled merge computes the sequential two-pointer merge of the whole
inputs. -/
theorem merge_eq_serial_merge {ε : Type} {cmp : ε → ε → Bool} (hswo : strict_weak_order cmp)
    (T : Nat) (hT : 0 < T) {A B : List ε} (hA : is_sorted cmp A) (hB : is_sorted cmp B) :
    merge cmp T A B = detail.serial_merge cmp (A.length + B.length) A B := by
  have h := merge_tiles_prefix hswo T hA hB (ceil_div (A.length + B.length) T) (le_refl _)
  rw [diagonal_last T _ hT, Nat.sub_self] at h
  rw [← h]
  unfold merge
  simp [detail.serial_merge]

/-! ## Stability of the two-pointer merge -/

/-- Data that the comparator does not look at travels with the elements unchanged. -/
theorem serial_merge_map {ε ε' : Type} (cmp : ε → ε → Bool) (cmp' : ε' → ε' → Bool)
    (π : ε' → ε) (hcmp : ∀ p q, cmp' p q = cmp (π p) (π q)) (n : Nat) (A B : List ε') :
    (detail.serial_merge cmp' n A B).map π = detail.serial_merge cmp n (A.map π) (B.map π) := by
  induction n generalizing A B with
  | zero => simp [detail.serial_merge]
  | succ n ih =>
    cases A with
    | nil =>
      cases B with
      | nil => simp [detail.serial_merge]
      | cons y ys =>
        simp only [detail.serial_merge, List.map_cons, List.map_nil, List.cons.injEq, true_and]
        exact ih [] ys
    | cons x xs =>
      cases B with
      | nil =>
        simp only [detail.serial_merge, List.map_cons, List.map_nil, List.cons.injEq, true_and]
        exact ih xs []
      | cons y ys =>
        by_cases hyx : cmp' y x = true
        · have hyx2 : cmp (π y) (π x) = true := by rw [← hcmp]; exact hyx
          simp only [detail.serial_merge, hyx, hyx2, if_true, List.map_cons, List.cons.injEq,
            true_and]
          exact ih (x :: xs) ys
        · have hyx' : cmp' y x = false := by simpa using hyx
          have hyx2 : cmp (π y) (π x) = false := by rw [← hcmp]; exact hyx'
          simp only [detail.serial_merge, hyx', hyx2, Bool.false_eq_true, if_false,
            List.map_cons, List.cons.injEq, true_and]
          exact ih xs (y :: ys)

/-- The elements of the first input appear in the output in their input order, and so do
the elements of the second input. -/
theorem serial_merge_filter {ε : Type} (cmp : ε → ε → Bool) (isB : ε → Bool) (n : Nat)
    (A B : List ε) (hn : n = A.length + B.length) (hA : ∀ x ∈ A, isB x = false)
    (hB : ∀ y ∈ B, isB y = true) :
    (detail.serial_merge cmp n A B).filter (fun p => !isB p) = A ∧
    (detail.serial_merge cmp n A B).filter isB = B := by
  induction n generalizing A B with
  | zero =>
    have h1 : A = [] := List.length_eq_zero.1 (by omega)
    have h2 : B = [] := List.length_eq_zero.1 (by omega)
    subst h1 h2
    simp [detail.serial_merge]
  | succ n ih =>
    cases A with
    | nil =>
      cases B with
      | nil => simp at hn
      | cons y ys =>
        have hy : isB y = true := hB y (List.mem_cons_self _ _)
        obtain ⟨i1, i2⟩ := ih [] ys (by simp at hn ⊢; omega) hA
          (fun z hz => hB z (List.mem_cons_of_mem _ hz))
        simp only [detail.serial_merge]
        constructor
        · rw [List.filter_cons_of_neg (by simp [hy])]
          exact i1
        · rw [List.filter_cons_of_pos hy, i2]
    | cons x xs =>
      have hx : isB x = false := hA x (List.mem_cons_self _ _)
      have hA' : ∀ z ∈ xs, isB z = false := fun z hz => hA z (List.mem_cons_of_mem _ hz)
      cases B with
      | nil =>
        obtain ⟨i1, i2⟩ := ih xs [] (by simp at hn ⊢; omega) hA' hB
        simp only [detail.serial_merge]
        constructor
        · rw [List.filter_cons_of_pos (by simp [hx]), i1]
        · rw [List.filter_cons_of_neg (by simp [hx])]
          exact i2
      | cons y ys =>
        have hy : isB y = true := hB y (List.mem_cons_self _ _)
        by_cases hyx : cmp y x = true
        · obtain ⟨i1, i2⟩ := ih (x :: xs) ys (by simp at hn ⊢; omega) hA
            (fun z hz => hB z (List.mem_cons_of_mem _ hz))
          simp only [detail.serial_merge, hyx, if_true]
          constructor
          · rw [List.filter_cons_of_neg (by simp [hy])]
            exact i1
          · rw [List.filter_cons_of_pos hy, i2]
        · have hyx' : cmp y x = false := by simpa using hyx
          obtain ⟨i1, i2⟩ := ih xs (y :: ys) (by simp at hn ⊢; omega) hA' hB
          simp only [detail.serial_merge, hyx', Bool.false_eq_true, if_false]
          constructor
          · rw [List.filter_cons_of_pos (by simp [hx]), i1]
          · rw [List.filter_cons_of_neg (by simp [hx])]
            exact i2

/-- An element of the second input precedes an element of the first input in the output
only when it is ordered strictly before it. -/
theorem serial_merge_ties {ε : Type} {cmp : ε → ε → Bool} (hswo : strict_weak_order cmp)
    (isB : ε → Bool) (n : Nat) (A B : List ε) (hsA : is_sorted cmp A)
    (hA : ∀ x ∈ A, isB x = false) (hB : ∀ y ∈ B, isB y = true) :
    (detail.serial_merge cmp n A B).Pairwise
      (fun p q => isB p = true → isB q = false → cmp p q = true) := by
  induction n generalizing A B with
  | zero => simp [detail.serial_merge]
  | succ n ih =>
    cases A with
    | nil =>
      cases B with
      | nil => simp [detail.serial_merge]
      | cons y ys =>
        have hB' : ∀ z ∈ ys, isB z = true := fun z hz => hB z (List.mem_cons_of_mem _ hz)
        simp only [detail.serial_merge]
        refine List.pairwise_cons.2 ⟨?_, ih [] ys hsA hA hB'⟩
        intro z hz _ hzA
        rcases serial_merge_mem cmp n [] ys z hz with h | h
        · simp at h
        · rw [hB' z h] at hzA
          exact absurd hzA (by decide)
    | cons x xs =>
      have hx : isB x = false := hA x (List.mem_cons_self _ _)
      have hA' : ∀ z ∈ xs, isB z = false := fun z hz => hA z (List.mem_cons_of_mem _ hz)
      have hsA' := List.pairwise_cons.1 hsA
      cases B with
      | nil =>
        simp only [detail.serial_merge]
        refine List.pairwise_cons.2 ⟨?_, ih xs [] hsA'.2 hA' hB⟩
        intro z _ hxB _
        rw [hx] at hxB
        exact absurd hxB (by decide)
      | cons y ys =>
        have hB' : ∀ z ∈ ys, isB z = true := fun z hz => hB z (List.mem_cons_of_mem _ hz)
        by_cases hyx : cmp y x = true
        · simp only [detail.serial_merge, hyx, if_true]
          refine List.pairwise_cons.2 ⟨?_, ih (x :: xs) ys hsA hA hB'⟩
          intro z hz _ hzA
          rcases serial_merge_mem cmp n (x :: xs) ys z hz with h | h
          · rcases List.mem_cons.1 h with rfl | h
            · exact hyx
            · cases hc : cmp y z with
              | true => rfl
              | false =>
                have := hswo.2 _ _ _ hc (hsA'.1 z h)
                rw [hyx] at this
                exact absurd this (by decide)
          · rw [hB' z h] at hzA
            exact absurd hzA (by decide)
        · have hyx' : cmp y x = false := by simpa using hyx
          simp only [detail.serial_merge, hyx', Bool.false_eq_true, if_false]
          refine List.pairwise_cons.2 ⟨?_, ih xs (y :: ys) hsA'.2 hA' hB⟩
          intro z _ hxB _
          rw [hx] at hxB
          exact absurd hxB (by decide)

/-! ## Claims about `merge` and `merge_pairs` -/

/-- The usual `<` on the natural numbers is a comparator as `merge` requires it. -/
theorem nat_lt_strict_weak_order : strict_weak_order (fun a b : Nat => decide (a < b)) := by
  constructor
  · intro a b h
    simp only [decide_eq_true_eq, decide_eq_false_iff_not] at h ⊢
    omega
  · intro a b c h1 h2
    simp only [decide_eq_false_iff_not] at h1 h2 ⊢
    omega

theorem strict_weak_order_fst {κ ν : Type} {cmp : κ → κ → Bool} (hswo : strict_weak_order cmp) :
    strict_weak_order (fun p q : κ × ν => cmp p.1 q.1) :=
  ⟨fun a b h => hswo.1 a.1 b.1 h, fun a b c h1 h2 => hswo.2 a.1 b.1 c.1 h1 h2⟩

theorem is_sorted_zip {κ ν : Type} {cmp : κ → κ → Bool} {K : List κ} (V : List ν)
    (hlen : K.length = V.length) (hK : is_sorted cmp K) :
    is_sorted (fun p q : κ × ν => cmp p.1 q.1) (K.zip V) := by
  have h : is_sorted cmp ((K.zip V).map Prod.fst) := by
    rw [List.map_fst_zip K V (by omega)]
    exact hK
  exact List.pairwise_map.1 h

/-- C2: for all sequences `A` and `B` sorted under the comparator, `merge(A, B)` has length
`n1 + n2`, is sorted under the comparator, and is a permutation of `A` followed by `B`: each
input element appears exactly once. -/
theorem merge_sorted_perm {ε : Type} (compare_function : ε → ε → Bool) (T : Nat)
    (A B : List ε) (hswo : strict_weak_order compare_function) (hT : 0 < T)
    (hA : is_sorted compare_function A) (hB : is_sorted compare_function B) :
    (merge compare_function T A B).length = A.length + B.length ∧
    is_sorted compare_function (merge compare_function T A B) ∧
    (merge compare_function T A B).Perm (A ++ B) := by
  rw [merge_eq_serial_merge hswo T hT hA hB]
  exact ⟨serial_merge_length compare_function _ A B rfl,
    serial_merge_sorted hswo _ A B hA hB, serial_merge_perm compare_function _ A B rfl⟩

/-- C2 witness: `A = [1, 3, 5, 7]` and `B = [2, 2, 6, 8]` merged in tiles of three. -/
theorem merge_sorted_perm_witness :
    strict_weak_order (fun a b : Nat => decide (a < b)) ∧ 0 < 3 ∧
    is_sorted (fun a b : Nat => decide (a < b)) [1, 3, 5, 7] ∧
    is_sorted (fun a b : Nat => decide (a < b)) [2, 2, 6, 8] ∧
    (merge (fun a b : Nat => decide (a < b)) 3 [1, 3, 5, 7] [2, 2, 6, 8]).length = 4 + 4 ∧
    is_sorted (fun a b : Nat => decide (a < b))
      (merge (fun a b : Nat => decide (a < b)) 3 [1, 3, 5, 7] [2, 2, 6, 8]) ∧
    (merge (fun a b : Nat => decide (a < b)) 3 [1, 3, 5, 7] [2, 2, 6, 8]).Perm
      ([1, 3, 5, 7] ++ [2, 2, 6, 8]) :=
  ⟨nat_lt_strict_weak_order, by decide, by simp [is_sorted], by simp [is_sorted],
    merge_sorted_perm (fun a b : Nat => decide (a < b)) 3 [1, 3, 5, 7] [2, 2, 6, 8]
      nat_lt_strict_weak_order (by decide) (by simp [is_sorted]) (by simp [is_sorted])⟩

/-- The keys that `merge_pairs` moves are moved as `merge` moves them, whatever the values. -/
theorem merge_zip_map_fst {κ ν : Type} {cmp : κ → κ → Bool} (hswo : strict_weak_order cmp)
    (T : Nat) (hT : 0 < T) {K1 K2 : List κ} (V1 V2 : List ν) (h1 : K1.length = V1.length)
    (h2 : K2.length = V2.length) (hK1 : is_sorted cmp K1) (hK2 : is_sorted cmp K2) :
    (merge (fun p q : κ × ν => cmp p.1 q.1) T (K1.zip V1) (K2.zip V2)).map Prod.fst
      = merge cmp T K1 K2 := by
  rw [merge_eq_serial_merge (strict_weak_order_fst hswo) T hT (is_sorted_zip V1 h1 hK1)
      (is_sorted_zip V2 h2 hK2),
    merge_eq_serial_merge hswo T hT hK1 hK2,
    serial_merge_map cmp (fun p q : κ × ν => cmp p.1 q.1) Prod.fst (fun _ _ => rfl),
    List.map_fst_zip K1 V1 (by omega), List.map_fst_zip K2 V2 (by omega)]
  simp only [List.length_zip]
  congr 1
  omega

/-- Values are not compared: changing them by a function changes the output values by the
same function and nothing else. -/
theorem merge_zip_map_values {κ ν ν' : Type} {cmp : κ → κ → Bool}
    (hswo : strict_weak_order cmp) (T : Nat) (hT : 0 < T) {K1 K2 : List κ} (V1 V2 : List ν)
    (g1 g2 : ν → ν') (g : ν' → ν) (hg1 : ∀ v, g (g1 v) = v) (hg2 : ∀ v, g (g2 v) = v)
    (h1 : K1.length = V1.length) (h2 : K2.length = V2.length) (hK1 : is_sorted cmp K1)
    (hK2 : is_sorted cmp K2) :
    (merge (fun p q : κ × ν' => cmp p.1 q.1) T (K1.zip (V1.map g1)) (K2.zip (V2.map g2))).map
        (Prod.map id g)
      = merge (fun p q : κ × ν => cmp p.1 q.1) T (K1.zip V1) (K2.zip V2) := by
  have e1 : (K1.zip (V1.map g1)).map (Prod.map id g) = K1.zip V1 := by
    rw [← List.zip_map_right, List.map_map]
    congr 1
    conv_rhs => rw [← List.map_id V1]
    exact List.map_congr_left (fun v _ => hg1 v)
  have e2 : (K2.zip (V2.map g2)).map (Prod.map id g) = K2.zip V2 := by
    rw [← List.zip_map_right, List.map_map]
    congr 1
    conv_rhs => rw [← List.map_id V2]
    exact List.map_congr_left (fun v _ => hg2 v)
  rw [merge_eq_serial_merge (strict_weak_order_fst hswo) T hT
      (is_sorted_zip (V1.map g1) (by simpa using h1) hK1)
      (is_sorted_zip (V2.map g2) (by simpa using h2) hK2),
    merge_eq_serial_merge (strict_weak_order_fst hswo) T hT (is_sorted_zip V1 h1 hK1)
      (is_sorted_zip V2 h2 hK2),
    serial_merge_map (fun p q : κ × ν => cmp p.1 q.1) (fun p q : κ × ν' => cmp p.1 q.1)
      (Prod.map id g) (fun _ _ => rfl), e1, e2]
  simp only [List.length_zip, List.length_map]

theorem merge_sorted_length_aux {ε : Type} {cmp : ε → ε → Bool} (hswo : strict_weak_order cmp)
    (T : Nat) (hT : 0 < T) {A B : List ε} (hA : is_sorted cmp A) (hB : is_sorted cmp B) :
    (merge cmp T A B).length = A.length + B.length := by
  rw [merge_eq_serial_merge hswo T hT hA hB]
  exact serial_merge_length cmp _ A B rfl

theorem isRight_of_mem_zip_inl {κ ν : Type} (K : List κ) (V : List ν) (p : κ × (ν ⊕ ν))
    (hp : p ∈ K.zip (V.map Sum.inl)) : p.2.isRight = false := by
  have h := (List.of_mem_zip (a := p.1) (b := p.2) hp).2
  obtain ⟨v, _, hv⟩ := List.mem_map.1 h
  rw [← hv]
  rfl

theorem isRight_of_mem_zip_inr {κ ν : Type} (K : List κ) (V : List ν) (p : κ × (ν ⊕ ν))
    (hp : p ∈ K.zip (V.map Sum.inr)) : p.2.isRight = true := by
  have h := (List.of_mem_zip (a := p.1) (b := p.2) hp).2
  obtain ⟨v, _, hv⟩ := List.mem_map.1 h
  rw [← hv]
  rfl

/-- C3: `merge` and `merge_pairs` are stable. For sorted key sequences `A` and `B` with
their values: the output keys of `merge_pairs` are `merge(A, B)` and the output values run
parallel to them; marking every value with the input it comes from changes nothing but the
marks; in the marked output the pairs of `A` appear in their input order with their own
values, and so do the pairs of `B`; and whenever a pair of `B` precedes a pair of `A`, its
key is ordered strictly before, so it is not an equal key: of two equal keys the one from
`A` comes first. With `A = [1,3,5,7]`, `B = [2,2,6,8]` the output is `[1,2,2,3,5,6,7,8]`, and
values `[10,20,30,40]`, `[100,200,300,400]` give `[10,100,200,20,30,300,40,400]`. -/
theorem merge_pairs_stable {κ ν : Type} (compare_function : κ → κ → Bool) (T : Nat)
    (keys_input1 : List κ) (values_input1 : List ν) (keys_input2 : List κ)
    (values_input2 : List ν) (hswo : strict_weak_order compare_function) (hT : 0 < T)
    (hlen1 : keys_input1.length = values_input1.length)
    (hlen2 : keys_input2.length = values_input2.length)
    (hK1 : is_sorted compare_function keys_input1)
    (hK2 : is_sorted compare_function keys_input2) :
    (merge_pairs compare_function T keys_input1 values_input1 keys_input2 values_input2).1
      = merge compare_function T keys_input1 keys_input2 ∧
    (merge_pairs compare_function T keys_input1 values_input1 keys_input2 values_input2).2.length
      = keys_input1.length + keys_input2.length ∧
    (merge_pairs compare_function T keys_input1 (values_input1.map Sum.inl) keys_input2
        (values_input2.map Sum.inr)).1
      = (merge_pairs compare_function T keys_input1 values_input1 keys_input2 values_input2).1 ∧
    (merge_pairs compare_function T keys_input1 (values_input1.map Sum.inl) keys_input2
        (values_input2.map Sum.inr)).2.map (Sum.elim id id)
      = (merge_pairs compare_function T keys_input1 values_input1 keys_input2 values_input2).2 ∧
    (List.zip
        (merge_pairs compare_function T keys_input1 (values_input1.map Sum.inl) keys_input2
          (values_input2.map Sum.inr)).1
        (merge_pairs compare_function T keys_input1 (values_input1.map Sum.inl) keys_input2
          (values_input2.map Sum.inr)).2).filter (fun p => p.2.isLeft)
      = keys_input1.zip (values_input1.map Sum.inl) ∧
    (List.zip
        (merge_pairs compare_function T keys_input1 (values_input1.map Sum.inl) keys_input2
          (values_input2.map Sum.inr)).1
        (merge_pairs compare_function T keys_input1 (values_input1.map Sum.inl) keys_input2
          (values_input2.map Sum.inr)).2).filter (fun p => p.2.isRight)
      = keys_input2.zip (values_input2.map Sum.inr) ∧
    (List.zip
        (merge_pairs compare_function T keys_input1 (values_input1.map Sum.inl) keys_input2
          (values_input2.map Sum.inr)).1
        (merge_pairs compare_function T keys_input1 (values_input1.map Sum.inl) keys_input2
          (values_input2.map Sum.inr)).2).Pairwise
      (fun p q => p.2.isRight = true → q.2.isLeft = true →
        compare_function p.1 q.1 = true ∧ p.1 ≠ q.1) ∧
    merge (fun a b : Nat => decide (a < b)) T [1, 3, 5, 7] [2, 2, 6, 8]
      = [1, 2, 2, 3, 5, 6, 7, 8] ∧
    merge_pairs (fun a b : Nat => decide (a < b)) T [1, 3, 5, 7] [10, 20, 30, 40] [2, 2, 6, 8]
        [100, 200, 300, 400]
      = ([1, 2, 2, 3, 5, 6, 7, 8], [10, 100, 200, 20, 30, 300, 40, 400]) := by
  have hl1 : keys_input1.length = (values_input1.map (Sum.inl : ν → ν ⊕ ν)).length := by
    simpa using hlen1
  have hl2 : keys_input2.length = (values_input2.map (Sum.inr : ν → ν ⊕ ν)).length := by
    simpa using hlen2
  have hkeys := merge_zip_map_fst hswo T hT values_input1 values_input2 hlen1 hlen2 hK1 hK2
  have hkeyst := merge_zip_map_fst hswo T hT (values_input1.map (Sum.inl : ν → ν ⊕ ν))
    (values_input2.map (Sum.inr : ν → ν ⊕ ν)) hl1 hl2 hK1 hK2
  have hvals := merge_zip_map_values hswo T hT values_input1 values_input2
    (Sum.inl : ν → ν ⊕ ν) (Sum.inr : ν → ν ⊕ ν) (Sum.elim id id) (fun _ => rfl) (fun _ => rfl)
    hlen1 hlen2 hK1 hK2
  have hser := merge_eq_serial_merge (strict_weak_order_fst hswo) T hT
    (is_sorted_zip (values_input1.map (Sum.inl : ν → ν ⊕ ν)) hl1 hK1)
    (is_sorted_zip (values_input2.map (Sum.inr : ν → ν ⊕ ν)) hl2 hK2)
  have hfil := serial_merge_filter (fun p q : κ × (ν ⊕ ν) => compare_function p.1 q.1)
    (fun p => p.2.isRight) _ (keys_input1.zip (values_input1.map Sum.inl))
    (keys_input2.zip (values_input2.map Sum.inr)) rfl
    (isRight_of_mem_zip_inl keys_input1 values_input1)
    (isRight_of_mem_zip_inr keys_input2 values_input2)
  have hties := serial_merge_ties (strict_weak_order_fst (ν := ν ⊕ ν) hswo)
    (fun p => p.2.isRight)
    ((keys_input1.zip (values_input1.map (Sum.inl : ν → ν ⊕ ν))).length
      + (keys_input2.zip (values_input2.map (Sum.inr : ν → ν ⊕ ν))).length)
    (keys_input1.zip (values_input1.map Sum.inl))
    (keys_input2.zip (values_input2.map Sum.inr))
    (is_sorted_zip (values_input1.map (Sum.inl : ν → ν ⊕ ν)) hl1 hK1)
    (isRight_of_mem_zip_inl keys_input1 values_input1)
    (isRight_of_mem_zip_inr keys_input2 values_input2)
  have hleft : (fun p : κ × (ν ⊕ ν) => !p.2.isRight) = (fun p => p.2.isLeft) := by
    funext p
    cases p.2 <;> rfl
  have hs1 : is_sorted (fun a b : Nat => decide (a < b)) [1, 3, 5, 7] := by simp [is_sorted]
  have hs2 : is_sorted (fun a b : Nat => decide (a < b)) [2, 2, 6, 8] := by simp [is_sorted]
  have hex1 : merge (fun a b : Nat => decide (a < b)) T [1, 3, 5, 7] [2, 2, 6, 8]
      = [1, 2, 2, 3, 5, 6, 7, 8] := by
    rw [merge_eq_serial_merge nat_lt_strict_weak_order T hT hs1 hs2]
    decide
  have hser2 : merge (fun p q : Nat × Nat => decide (p.1 < q.1)) T
        ([1, 3, 5, 7].zip [10, 20, 30, 40]) ([2, 2, 6, 8].zip [100, 200, 300, 400])
      = detail.serial_merge (fun p q : Nat × Nat => decide (p.1 < q.1)) (4 + 4)
          ([1, 3, 5, 7].zip [10, 20, 30, 40]) ([2, 2, 6, 8].zip [100, 200, 300, 400]) :=
    merge_eq_serial_merge (strict_weak_order_fst nat_lt_strict_weak_order) T hT
      (is_sorted_zip (K := [1, 3, 5, 7]) [10, 20, 30, 40] rfl hs1)
      (is_sorted_zip (K := [2, 2, 6, 8]) [100, 200, 300, 400] rfl hs2)
  have hex2 : merge_pairs (fun a b : Nat => decide (a < b)) T [1, 3, 5, 7] [10, 20, 30, 40]
        [2, 2, 6, 8] [100, 200, 300, 400]
      = ([1, 2, 2, 3, 5, 6, 7, 8], [10, 100, 200, 20, 30, 300, 40, 400]) := by
    unfold merge_pairs
    rw [hser2]
    decide
  refine ⟨?_, ?_, ?_, ?_, ?_, ?_, ?_, hex1, hex2⟩ <;> unfold merge_pairs <;>
    simp only [List.unzip_fst, List.unzip_snd]
  · exact hkeys
  · rw [List.length_map, ← List.length_map _ Prod.fst, hkeys,
      (merge_sorted_length_aux hswo T hT hK1 hK2)]
  · rw [hkeyst, hkeys]
  · rw [← hvals, List.map_map, List.map_map]
    rfl
  · rw [← List.unzip_fst, ← List.unzip_snd, List.zip_unzip, hser, ← hleft]
    exact hfil.1
  · rw [← List.unzip_fst, ← List.unzip_snd, List.zip_unzip, hser]
    exact hfil.2
  · rw [← List.unzip_fst, ← List.unzip_snd, List.zip_unzip, hser]
    refine List.Pairwise.imp ?_ hties
    intro p q h hp hq
    have hq' : q.2.isRight = false := by
      revert hq
      cases q.2 <;> simp
    have hc := h hp hq'
    refine ⟨hc, ?_⟩
    intro heq
    rw [heq, cmp_irrefl hswo q.1] at hc
    exact absurd hc (by decide)

/-- C3 witness: the scenario `A = [1,3,5,7]`, `B = [2,2,6,8]` with values `[10,20,30,40]` and
`[100,200,300,400]`, merged in tiles of three. -/
theorem merge_pairs_stable_witness :
    strict_weak_order (fun a b : Nat => decide (a < b)) ∧ 0 < 3 ∧
    [1, 3, 5, 7].length = [10, 20, 30, 40].length ∧
    [2, 2, 6, 8].length = [100, 200, 300, 400].length ∧
    is_sorted (fun a b : Nat => decide (a < b)) [1, 3, 5, 7] ∧
    is_sorted (fun a b : Nat => decide (a < b)) [2, 2, 6, 8] ∧
    merge (fun a b : Nat => decide (a < b)) 3 [1, 3, 5, 7] [2, 2, 6, 8]
      = [1, 2, 2, 3, 5, 6, 7, 8] ∧
    merge_pairs (fun a b : Nat => decide (a < b)) 3 [1, 3, 5, 7] [10, 20, 30, 40] [2, 2, 6, 8]
        [100, 200, 300, 400]
      = ([1, 2, 2, 3, 5, 6, 7, 8], [10, 100, 200, 20, 30, 300, 40, 400]) :=
  ⟨nat_lt_strict_weak_order, by decide, rfl, rfl, by simp [is_sorted], by simp [is_sorted],
    (merge_pairs_stable (fun a b : Nat => decide (a < b)) 3 [1, 3, 5, 7] [10, 20, 30, 40]
      [2, 2, 6, 8] [100, 200, 300, 400] nat_lt_strict_weak_order (by decide) rfl rfl
      (by simp [is_sorted]) (by simp [is_sorted])).2.2.2.2.2.2.2⟩

end rocprim
